import Mathlib

/-!
# Verification of the testlib-py generator entry points

Shallow embedding of the pybind11 entry points under `src/generators/`.

* The testlib engine (`rnd`, `shuffle`, `registerGen`) is included from
  `../testlib/testlib.h` and is not part of the verified sources.  It appears
  here as the record `Rnd` of state-passing primitives; every theorem is
  stated for an arbitrary such record, with the assumptions on the primitives
  written out as hypotheses.
* `int` values are mathematical integers; wherever the source widens or
  converts (`static_cast<long long>`, `static_cast<std::size_t>`) the
  conversion is modelled explicitly with its modulus.
* A C++ exception `py::value_error(msg)` is `Except.error msg`.
-/

namespace Testlib

/-! ## The engine interface -/

/-- The testlib primitives used by the generators, as functions of the engine state. -/
structure Rnd (σ : Type) where
  /-- Models `registerGen(1, argv, 1)`. -/
  registerGen : σ → σ
  /-- Models `rnd.setSeed(v)`. -/
  setSeed : Int → σ → σ
  /-- Models `rnd.next(n)`. -/
  next : Int → σ → Int × σ
  /-- Models `rnd.next(lo, hi)`. -/
  nextRange : Int → Int → σ → Int × σ
  /-- Models `rnd.next(pattern)`. -/
  nextPattern : String → σ → String × σ
  /-- Models `rnd.wnext(n, t)`. -/
  wnext : Int → Int → σ → Int × σ
  /-- Models `rnd.wnext(lo, hi, t)`. -/
  wnextRange : Int → Int → Int → σ → Int × σ
  /-- Models `rnd.partition(count, sum, minPart)`. -/
  partition : Int → Int → Int → σ → List Int × σ
  /-- Models `rnd.perm(n, first)`; `rnd.perm(n)` is `perm n 0`. -/
  perm : Int → Int → σ → List Int × σ
  /-- Models `shuffle(first, last)` on the range holding the given elements. -/
  shuffle : (α : Type) → List α → σ → List α × σ

/-- The state of one extension module: the engine state behind `rnd` and the
file-local flag `registered`. -/
structure Module (σ : Type) where
  rng : σ
  registered : Bool

/-- Models `ensureRegistered()`: the first call runs `registerGen` and sets the flag. -/
def ensureRegistered {σ : Type} (R : Rnd σ) (w : Module σ) : Module σ :=
  if w.registered then w else ⟨R.registerGen w.rng, true⟩

/-- Models `if (!seed.is_none()) rnd.setSeed(seed.cast<long long>())`. -/
def applySeed {σ : Type} (R : Rnd σ) (seed : Option Int) (s : σ) : σ :=
  match seed with
  | none => s
  | some v => R.setSeed v s

/-- Models reading `v[i]` from a `std::vector<int>`.  An index outside the vector is
undefined behaviour in the source; the model reads `0` there. -/
def vecGet (v : List Int) (i : Int) : Int :=
  if 0 ≤ i then v.getD i.toNat 0 else 0

/-- Value of an integer after conversion to `long long` arithmetic (two's complement, 64 bits). -/
def wrapLL (x : Int) : Int := (x + 2 ^ 63) % 2 ^ 64 - 2 ^ 63

/-- Value of an integer after `static_cast<std::size_t>` for a `size_t` of `bits` bits. -/
def toSizeT (bits : Nat) (x : Int) : Nat := (x % 2 ^ bits).toNat

/-- The labels `first, first + 1, ..., first + n - 1` that `rnd.perm(n, first)` permutes. -/
def labels (n first : Int) : List Int :=
  (List.range n.toNat).map fun (i : Nat) => (i : Int) + first

/-- The range of a 32-bit `int`. -/
def IsInt32 (x : Int) : Prop := -2 ^ 31 ≤ x ∧ x < 2 ^ 31

instance (x : Int) : Decidable (IsInt32 x) := by unfold IsInt32; infer_instance

/-! ## gs.cpp -/

namespace Gs

/-- Models `for (int i = 0; i < repeat; ++i) out << pattern;` with `k` iterations left. -/
def appendRepeat (out pattern : String) : Nat → String
  | 0 => out
  | k + 1 => appendRepeat (out ++ pattern) pattern k

/-- Models the range-for over `parts`; a negative count throws and drops `out`. -/
def loop : List (Int × String) → String → Except String String
  | [], out => .ok out
  | part :: rest, out =>
    if part.1 < 0 then .error "repeat count must be non-negative"
    else loop rest (appendRepeat out part.2 part.1.toNat)

/-- Models `generate(parts)` of `gs.cpp`. -/
def generate (parts : List (Int × String)) : Except String String :=
  if parts.isEmpty then .error "parts must not be empty"
  else loop parts ""

/-- The pattern of one part repeated its count times. -/
def repeated (part : Int × String) : String :=
  String.join (List.replicate part.1.toNat part.2)

/-- The concatenation the generator is documented to return. -/
def expected (parts : List (Int × String)) : String :=
  String.join (parts.map repeated)

end Gs

/-! ## gen-array-with-opt.cpp -/

namespace GenArray

/-- Models the inner loop `for (int i = 0; i < n; ++i)` with `k` iterations left:
draw a value, print it, and print a space unless it is the last one. -/
def valueLoop {σ : Type} (R : Rnd σ) (min_value max_value value_bias n : Int) :
    Nat → Int → String → σ → String × σ
  | 0, _, out, s => (out, s)
  | k + 1, i, out, s =>
    let r := R.wnextRange min_value max_value value_bias s
    let out := out ++ toString r.1
    let out := if i + 1 < n then out ++ " " else out
    valueLoop R min_value max_value value_bias n k (i + 1) out r.2

/-- Models the outer loop `for (int test_case = 0; test_case < test_count; ++test_case)`
with `k` iterations left. -/
def caseLoop {σ : Type} (R : Rnd σ) (min_value max_value value_bias : Int)
    (n_list : List Int) : Nat → Int → String → σ → String × σ
  | 0, _, out, s => (out, s)
  | k + 1, test_case, out, s =>
    let n := vecGet n_list test_case
    let out := out ++ toString n ++ "\n"
    let r := valueLoop R min_value max_value value_bias n n.toNat 0 out s
    caseLoop R min_value max_value value_bias n_list k (test_case + 1) (r.1 ++ "\n") r.2

/-- Models `generate` of `gen-array-with-opt.cpp`. -/
def generate {σ : Type} (R : Rnd σ)
    (test_count sum_n min_n min_value max_value value_bias : Int)
    (seed : Option Int) (w : Module σ) : Except String String × Module σ :=
  let w := ensureRegistered R w
  if test_count ≤ 0 then (.error "test_count must be positive", w)
  else if min_n ≤ 0 then (.error "min_n must be positive", w)
  else if wrapLL (wrapLL test_count * wrapLL min_n) > wrapLL sum_n then
    (.error "sum_n must be at least test_count * min_n", w)
  else if min_value > max_value then (.error "min_value must be <= max_value", w)
  else
    let s := applySeed R seed w.rng
    let p := R.partition test_count sum_n min_n s
    let out := toString test_count ++ "\n"
    let r := caseLoop R min_value max_value value_bias p.1 test_count.toNat 0 out p.2
    (.ok r.1, ⟨r.2, w.registered⟩)

/-- One line of integers separated by single spaces, newline-terminated. -/
def renderLine (vals : List Int) : String :=
  " ".intercalate (vals.map toString) ++ "\n"

/-- One test case: the line with its size, then the line with its values. -/
def renderCase (vals : List Int) : String :=
  toString (vals.length : Int) ++ "\n" ++ renderLine vals

/-- The documented output format: the number of test cases, then every test case. -/
def renderArrays (cases : List (List Int)) : String :=
  toString (cases.length : Int) ++ "\n" ++ String.join (cases.map renderCase)

/-- The values the inner loop draws in `k` iterations, and the state it leaves. -/
def drawValues {σ : Type} (R : Rnd σ) (min_value max_value value_bias : Int) :
    Nat → σ → List Int × σ
  | 0, s => ([], s)
  | k + 1, s =>
    let r := R.wnextRange min_value max_value value_bias s
    let rest := drawValues R min_value max_value value_bias k r.2
    (r.1 :: rest.1, rest.2)

/-- The values drawn for test cases of the given sizes, and the state left. -/
def drawCases {σ : Type} (R : Rnd σ) (min_value max_value value_bias : Int) :
    List Int → σ → List (List Int) × σ
  | [], s => ([], s)
  | n :: ns, s =>
    let r := drawValues R min_value max_value value_bias n.toNat s
    let rest := drawCases R min_value max_value value_bias ns r.2
    (r.1 :: rest.1, rest.2)

end GenArray

/-! ## gen-bipartite-graph.cpp -/

namespace GenBipartite

/-- The order of `std::pair<int, int>`: lexicographic. -/
def pairLt (a b : Int × Int) : Prop := a.1 < b.1 ∨ (a.1 = b.1 ∧ a.2 < b.2)

instance (a b : Int × Int) : Decidable (pairLt a b) := by unfold pairLt; infer_instance

/-- Models `std::set<std::pair<int, int>>::insert` on the increasing list of the set's
elements: an element already present is not inserted again. -/
def setInsert (e : Int × Int) : List (Int × Int) → List (Int × Int)
  | [] => [e]
  | x :: xs =>
    if e = x then x :: xs
    else if pairLt e x then e :: x :: xs
    else x :: setInsert e xs

/-- Models `while (edges.size() < k)`: every iteration draws a pair and inserts it.  The
loop has no bound in the source; the model stops with `none` after `fuel` iterations. -/
def edgeLoop {σ : Type} (R : Rnd σ) (n m t : Int) (k : Nat) :
    Nat → List (Int × Int) → σ → Option (List (Int × Int) × σ)
  | 0, edges, s => if edges.length < k then none else some (edges, s)
  | fuel + 1, edges, s =>
    if edges.length < k then
      let a := R.wnext n t s
      let b := R.wnext m t a.2
      edgeLoop R n m t k fuel (setInsert (a.1, b.1) edges) b.2
    else some (edges, s)

/-- Models the output loop `for (const auto &edge : e)`. -/
def emit (pa pb : List Int) : List (Int × Int) → String → String
  | [], out => out
  | edge :: rest, out =>
    emit pa pb rest
      (out ++ toString (vecGet pa edge.1) ++ " " ++ toString (vecGet pb edge.2) ++ "\n")

/-- Models `generate` of `gen-bipartite-graph.cpp` for a `std::size_t` of `bits` bits;
`none` means the sampling loop did not finish within `fuel` iterations. -/
def generate {σ : Type} (bits : Nat) (R : Rnd σ) (n m : Int) (k : Nat)
    (seed : Option Int) (fuel : Nat) (w : Module σ) :
    Option (Except String String × Module σ) :=
  let w := ensureRegistered R w
  if n ≤ 0 then some (.error "n must be positive", w)
  else if m ≤ 0 then some (.error "m must be positive", w)
  else
    let max_edges := (toSizeT bits n * toSizeT bits m) % 2 ^ bits
    if k > max_edges then some (.error "k must not exceed n * m", w)
    else
      let s := applySeed R seed w.rng
      let t := R.nextRange (-2) 2 s
      match edgeLoop R n m t.1 k fuel [] t.2 with
      | none => none
      | some (edges, s) =>
        let e := R.shuffle (Int × Int) edges s
        let pa := R.perm n 1 e.2
        let pb := R.perm m 1 pa.2
        let out := toString n ++ " " ++ toString m ++ " " ++ toString e.1.length ++ "\n"
        some (.ok (emit pa.1 pb.1 e.1 out), ⟨pb.2, w.registered⟩)

/-- The documented output format: the header `n m k`, then one line per edge. -/
def renderBipartite (n m : Int) (pairs : List (Int × Int)) : String :=
  toString n ++ " " ++ toString m ++ " " ++ toString pairs.length ++ "\n" ++
    String.join (pairs.map fun e => toString e.1 ++ " " ++ toString e.2 ++ "\n")

end GenBipartite

/-! ## gen-rooted-tree-graph.cpp and gen-tree-graph.cpp -/

/-- Models the write `v[i] = x` to a `std::vector`.  An index outside the vector is
undefined behaviour in the source; the model leaves the vector unchanged there. -/
def vecSet (v : List Int) (i : Int) (x : Int) : List Int :=
  if 0 ≤ i then v.set i.toNat x else v

/-- Models `std::vector<int> p(n); for (int i = 1; i < n; ++i) p[i] = rnd.wnext(i, t);`
(the same loop opens both tree generators) with `k` iterations left. -/
def drawParents {σ : Type} (R : Rnd σ) (t : Int) : Nat → Int → List Int → σ → List Int × σ
  | 0, _, p, s => (p, s)
  | k + 1, i, p, s =>
    let r := R.wnext i t s
    drawParents R t k (i + 1) (vecSet p i r.1) r.2

/-- The vector `p` after the drawing loop, and the engine state it leaves. -/
def parents {σ : Type} (R : Rnd σ) (n t : Int) (s : σ) : List Int × σ :=
  drawParents R t (n - 1).toNat 1 (List.replicate n.toNat 0) s

namespace GenRootedTree

/-- Models `std::vector<int> perm(n); for (int i = 0; i < n; ++i) perm[i] = i;`. -/
def identityPerm (n : Int) : List Int :=
  (List.range n.toNat).map fun (i : Nat) => (i : Int)

/-- Models `shuffle(perm.begin() + 1, perm.end())`: the first element stays in place. -/
def shuffleTail {σ : Type} (R : Rnd σ) (perm : List Int) (s : σ) : List Int × σ :=
  match perm with
  | [] => ([], s)
  | x :: xs =>
    let r := R.shuffle Int xs s
    (x :: r.1, r.2)

/-- Models `for (int i = 1; i < n; ++i) pp[perm[i] - 1] = perm[p[i]] + 1;` with `k`
iterations left. -/
def fillParents (perm p : List Int) : Nat → Int → List Int → List Int
  | 0, _, pp => pp
  | k + 1, i, pp =>
    fillParents perm p k (i + 1) (vecSet pp (vecGet perm i - 1) (vecGet perm (vecGet p i) + 1))

/-- Models the output loop `for (std::size_t i = 0; i < pp.size(); ++i)` with `k`
iterations left. -/
def emitLoop (pp : List Int) : Nat → Nat → String → String
  | 0, _, out => out
  | k + 1, i, out =>
    let out := out ++ toString (pp.getD i 0)
    let out := if i + 1 < pp.length then out ++ " " else out
    emitLoop pp k (i + 1) out

/-- The relabelling `perm` after the shuffle, and the engine state it leaves. -/
def relabel {σ : Type} (R : Rnd σ) (n : Int) (s : σ) : List Int × σ :=
  shuffleTail R (identityPerm n) s

/-- The vector `pp` of relabelled parents. -/
def parentLabels (perm p : List Int) (n : Int) : List Int :=
  fillParents perm p (n - 1).toNat 1 (List.replicate (n - 1).toNat 0)

/-- Models `generate` of `gen-rooted-tree-graph.cpp`. -/
def generate {σ : Type} (R : Rnd σ) (n t : Int) (seed : Option Int) (w : Module σ) :
    Except String String × Module σ :=
  let w := ensureRegistered R w
  if n ≤ 0 then (.error "n must be positive", w)
  else
    let s := applySeed R seed w.rng
    let p := parents R n t s
    let perm := relabel R n p.2
    let pp := parentLabels perm.1 p.1 n
    let out := toString n ++ "\n"
    let out := emitLoop pp pp.length 0 out
    (.ok (out ++ "\n"), ⟨perm.2, w.registered⟩)

/-- The documented output format: the line `n`, then the line of parent labels. -/
def renderRooted (n : Int) (pp : List Int) : String :=
  toString n ++ "\n" ++ " ".intercalate (pp.map toString) ++ "\n"

/-- The parent of the node labelled `v` (for `v >= 2`) read off the parent line: its
entry number `v - 2`. -/
def parentOf (pp : List Int) (v : Int) : Int := vecGet pp (v - 2)

end GenRootedTree

namespace GenTree

/-- Models the loop `for (int i = 1; i < n; ++i)` that orients and appends the edge of
node `i`, with `k` iterations left. -/
def edgeLoop {σ : Type} (R : Rnd σ) (perm p : List Int) :
    Nat → Int → List (Int × Int) → σ → List (Int × Int) × σ
  | 0, _, edges, s => (edges, s)
  | k + 1, i, edges, s =>
    let r := R.next 2 s
    let e := if r.1 ≠ 0 then (vecGet perm i, vecGet perm (vecGet p i))
      else (vecGet perm (vecGet p i), vecGet perm i)
    edgeLoop R perm p k (i + 1) (edges ++ [e]) r.2

/-- Models the output loop `for (const auto &edge : edges)`. -/
def emit : List (Int × Int) → String → String
  | [], out => out
  | edge :: rest, out =>
    emit rest (out ++ toString (edge.1 + 1) ++ " " ++ toString (edge.2 + 1) ++ "\n")

/-- The shuffled edge list over the labels `0..n-1`, and the engine state it leaves. -/
def edgeList {σ : Type} (R : Rnd σ) (n t : Int) (s : σ) : List (Int × Int) × σ :=
  let p := parents R n t s
  let perm := R.perm n 0 p.2
  let r := edgeLoop R perm.1 p.1 (n - 1).toNat 1 [] perm.2
  R.shuffle (Int × Int) r.1 r.2

/-- Models `generate` of `gen-tree-graph.cpp`. -/
def generate {σ : Type} (R : Rnd σ) (n t : Int) (seed : Option Int) (w : Module σ) :
    Except String String × Module σ :=
  let w := ensureRegistered R w
  if n ≤ 0 then (.error "n must be positive", w)
  else
    let s := applySeed R seed w.rng
    let edges := edgeList R n t s
    let out := toString n ++ "\n"
    (.ok (emit edges.1 out), ⟨edges.2, w.registered⟩)

/-- The documented output format: the line `n`, then one line `u v` per edge. -/
def renderTree (n : Int) (lines : List (Int × Int)) : String :=
  toString n ++ "\n" ++
    String.join (lines.map fun e => toString e.1 ++ " " ++ toString e.2 ++ "\n")

/-- The undirected graph on the labels `1..n` whose edges are the given lines. -/
def lineGraph (n : Int) (lines : List (Int × Int)) :
    SimpleGraph {v : Int // 1 ≤ v ∧ v ≤ n} where
  Adj a b := a ≠ b ∧ ((a.1, b.1) ∈ lines ∨ (b.1, a.1) ∈ lines)
  symm := fun _ _ h => ⟨h.1.symm, h.2.symm⟩
  loopless := fun _ h => h.1 rfl

end GenTree

/-! ## bgen.cpp, igen.cpp, iwgen.cpp, sgen.cpp, swgen.cpp -/

namespace Bgen

/-- Models `generate` of `bgen.cpp`. -/
def generate {σ : Type} (R : Rnd σ) (seed : Option Int) (w : Module σ) :
    String × Module σ :=
  let w := ensureRegistered R w
  let s := applySeed R seed w.rng
  let r := R.nextPattern "[0000000001]\x7b100\x7d" s
  (r.1, ⟨r.2, w.registered⟩)

end Bgen

namespace Igen

/-- Models `generate` of `igen.cpp`. -/
def generate {σ : Type} (R : Rnd σ) (seed : Option Int) (w : Module σ) :
    Int × Module σ :=
  let w := ensureRegistered R w
  let s := applySeed R seed w.rng
  let r := R.nextRange 1 1000000 s
  (r.1, ⟨r.2, w.registered⟩)

end Igen

namespace Iwgen

/-- Models `generate` of `iwgen.cpp`. -/
def generate {σ : Type} (R : Rnd σ) (weight : Int) (seed : Option Int) (w : Module σ) :
    Int × Module σ :=
  let w := ensureRegistered R w
  let s := applySeed R seed w.rng
  let r := R.wnextRange 1 1000000 weight s
  (r.1, ⟨r.2, w.registered⟩)

end Iwgen

namespace Sgen

/-- Models `generate` of `sgen.cpp`. -/
def generate {σ : Type} (R : Rnd σ) (seed : Option Int) (w : Module σ) :
    String × Module σ :=
  let w := ensureRegistered R w
  let s := applySeed R seed w.rng
  let r := R.nextPattern "[a-zA-Z0-9]\x7b1,1000\x7d" s
  (r.1, ⟨r.2, w.registered⟩)

end Sgen

namespace Swgen

/-- Models `generate` of `swgen.cpp`; the pattern is the format `"[a-zA-Z0-9]{1,%d}"`
filled with `length`. -/
def generate {σ : Type} (R : Rnd σ) (weight : Int) (seed : Option Int) (w : Module σ) :
    String × Module σ :=
  let w := ensureRegistered R w
  let s := applySeed R seed w.rng
  let length := R.wnextRange 1 1000 weight s
  let r := R.nextPattern ("[a-zA-Z0-9]\x7b1," ++ toString length.1 ++ "\x7d") length.2
  (r.1, ⟨r.2, w.registered⟩)

end Swgen

/-! ## A concrete engine

A small linear congruential engine over a 16-bit state.  It is not testlib's generator; it
serves to run the models on concrete inputs. -/

/-- One step of the 16-bit linear congruential sequence. -/
def lcgStep (s : Nat) : Nat := (25173 * s + 13849) % 65536

/-- A draw in `[0, n-1]` (for positive `n`) from the high byte of the next state. -/
def lcgDraw (n : Int) (s : Nat) : Int × Nat :=
  (((lcgStep s / 256 : Nat) : Int) % n, lcgStep s)

/-- The concrete engine. -/
def lcgRnd : Rnd Nat where
  registerGen := fun _ => 4242
  setSeed := fun v _ => v.toNat % 65536
  next := lcgDraw
  nextRange := fun lo hi s => (lo + (lcgDraw (hi - lo + 1) s).1, lcgStep s)
  nextPattern := fun p s => (p ++ toString (lcgStep s), lcgStep s)
  wnext := fun n _ s => lcgDraw n s
  wnextRange := fun lo hi _ s => (lo + (lcgDraw (hi - lo + 1) s).1, lcgStep s)
  partition := fun count sum minPart s =>
    ((sum - (count - 1) * minPart) :: List.replicate (count.toNat - 1) minPart, lcgStep s)
  perm := fun n first s =>
    (((List.range n.toNat).map fun (i : Nat) => (i : Int) + first).rotate (lcgStep s % 7), lcgStep s)
  shuffle := fun _ l s => (l.rotate (lcgStep s % 5), lcgStep s)

/-- An engine that records, in order, the names of the operations run on it; every draw
returns a fixed value.  Its state is the record itself. -/
def traceRnd : Rnd (List String) where
  registerGen := fun s => s ++ ["registerGen"]
  setSeed := fun _ s => s ++ ["setSeed"]
  next := fun _ s => (0, s ++ ["next"])
  nextRange := fun lo _ s => (lo, s ++ ["next"])
  nextPattern := fun p s => (p, s ++ ["next"])
  wnext := fun _ _ s => (0, s ++ ["wnext"])
  wnextRange := fun lo _ _ s => (lo, s ++ ["wnext"])
  partition := fun count sum minPart s =>
    ((sum - (count - 1) * minPart) :: List.replicate (count.toNat - 1) minPart,
      s ++ ["partition"])
  perm := fun n first s =>
    ((List.range n.toNat).map fun (i : Nat) => (i : Int) + first, s ++ ["perm"])
  shuffle := fun _ l s => (l, s ++ ["shuffle"])

/-! ## Strings -/

theorem foldl_append_eq (l : List String) (acc : String) :
    List.foldl (fun r s => r ++ s) acc l = acc ++ List.foldl (fun r s => r ++ s) "" l := by
  induction l generalizing acc with
  | nil => simp
  | cons a l ih =>
    simp only [List.foldl_cons]
    rw [ih (acc ++ a), ih ("" ++ a)]
    simp [String.append_assoc]

theorem join_cons (a : String) (l : List String) :
    String.join (a :: l) = a ++ String.join l := by
  simp only [String.join, List.foldl_cons]
  rw [foldl_append_eq]
  simp

theorem join_nil : String.join [] = "" := rfl

theorem join_append (l₁ l₂ : List String) :
    String.join (l₁ ++ l₂) = String.join l₁ ++ String.join l₂ := by
  induction l₁ with
  | nil => simp [join_nil]
  | cons a l ih => simp [join_cons, ih, String.append_assoc]

theorem join_length (l : List String) :
    (String.join l).length = (l.map String.length).sum := by
  induction l with
  | nil => simp [join_nil]
  | cons a l ih => simp [join_cons, ih]

/-! ## Vectors and label lists -/

theorem vecGet_natCast (v : List Int) (i : Nat) (h : i < v.length) :
    vecGet v (i : Int) = v.get ⟨i, h⟩ := by
  simp [vecGet, List.getD_eq_getElem?_getD, List.getElem?_eq_getElem h]

theorem labels_length (n first : Int) : (labels n first).length = n.toNat := by
  simp [labels]

theorem labels_nodup (n first : Int) : (labels n first).Nodup := by
  unfold labels
  refine List.Nodup.map ?_ (List.nodup_range _)
  intro a b h
  simpa using h

theorem labels_mem (n first x : Int) (hx : x ∈ labels n first) :
    first ≤ x ∧ x ≤ first + n - 1 := by
  unfold labels at hx
  obtain ⟨i, hi, rfl⟩ := List.mem_map.mp hx
  have := List.mem_range.mp hi
  omega

theorem mem_labels (n first x : Int) (h1 : first ≤ x) (h2 : x ≤ first + n - 1) :
    x ∈ labels n first := by
  unfold labels
  refine List.mem_map.mpr ⟨(x - first).toNat, List.mem_range.mpr (by omega), by omega⟩

theorem vecGet_mem (v : List Int) (i : Int) (h0 : 0 ≤ i) (h1 : i < v.length) :
    vecGet v i ∈ v := by
  obtain ⟨j, rfl⟩ := Int.eq_ofNat_of_zero_le h0
  have hj : j < v.length := by omega
  rw [vecGet_natCast v j hj]
  exact List.get_mem _ _ _

theorem vecGet_inj (v : List Int) (hv : v.Nodup) (i j : Int) (hi0 : 0 ≤ i)
    (hi1 : i < v.length) (hj0 : 0 ≤ j) (hj1 : j < v.length) (h : vecGet v i = vecGet v j) :
    i = j := by
  obtain ⟨a, rfl⟩ := Int.eq_ofNat_of_zero_le hi0
  obtain ⟨b, rfl⟩ := Int.eq_ofNat_of_zero_le hj0
  have ha : a < v.length := by omega
  have hb : b < v.length := by omega
  rw [vecGet_natCast v a ha, vecGet_natCast v b hb] at h
  have := (List.Nodup.get_inj_iff hv).mp h
  simp only [Fin.mk.injEq] at this
  omega

theorem vecSet_length (v : List Int) (i x : Int) : (vecSet v i x).length = v.length := by
  unfold vecSet
  split_ifs <;> simp

theorem vecGet_vecSet_eq (v : List Int) (i x : Int) (h0 : 0 ≤ i) (h1 : i < v.length) :
    vecGet (vecSet v i x) i = x := by
  have h2 : i.toNat < v.length := by omega
  simp [vecGet, vecSet, h0, List.getD_eq_getElem?_getD, h2]

theorem vecGet_vecSet_ne (v : List Int) (i j x : Int) (h : i ≠ j) :
    vecGet (vecSet v i x) j = vecGet v j := by
  unfold vecGet vecSet
  by_cases hj : 0 ≤ j
  · by_cases hi : 0 ≤ i
    · have hne : i.toNat ≠ j.toNat := by omega
      simp [hi, hj, List.getD_eq_getElem?_getD, List.getElem?_set_ne hne]
    · simp [hi, hj]
  · simp [hj]

/-- Facts about a rearrangement `perm` of the labels `0..n-1`. -/
theorem perm_facts (n : Int) (hn : 0 ≤ n) (perm : List Int)
    (hperm : perm.Perm (labels n 0)) :
    (perm.length : Int) = n ∧ perm.Nodup ∧
      (∀ i, 0 ≤ i → i < n → 0 ≤ vecGet perm i ∧ vecGet perm i ≤ n - 1) ∧
      (∀ x, 0 ≤ x → x ≤ n - 1 → ∃ i, 0 ≤ i ∧ i < n ∧ vecGet perm i = x) := by
  have hlen : (perm.length : Int) = n := by
    rw [hperm.length_eq, labels_length, Int.toNat_of_nonneg hn]
  refine ⟨hlen, hperm.nodup_iff.mpr (labels_nodup n 0), ?_, ?_⟩
  · intro i h0 h1
    have := labels_mem n 0 _
      (hperm.mem_iff.mp (vecGet_mem perm i h0 (by omega)))
    omega
  · intro x h0 h1
    have hx : x ∈ perm := hperm.mem_iff.mpr (mem_labels n 0 x (by omega) (by omega))
    obtain ⟨k, hk⟩ := List.mem_iff_get.mp hx
    refine ⟨(k.1 : Int), by omega, by have := k.2; omega, ?_⟩
    rw [vecGet_natCast perm k.1 k.2]
    exact hk

/-! ## Proofs: gen-array-with-opt.cpp -/

theorem intercalate_go_eq (acc sep : String) (l : List String) :
    String.intercalate.go acc sep l = acc ++ String.join (l.map fun a => sep ++ a) := by
  induction l generalizing acc with
  | nil => simp [String.intercalate.go, join_nil]
  | cons a l ih =>
    rw [String.intercalate.go, ih, List.map_cons, join_cons]
    simp [String.append_assoc]

theorem intercalate_cons_cons (sep a b : String) (l : List String) :
    sep.intercalate (a :: b :: l) = a ++ sep ++ sep.intercalate (b :: l) := by
  simp [String.intercalate, intercalate_go_eq, join_cons, String.append_assoc]

theorem intercalate_singleton (sep a : String) : sep.intercalate [a] = a := by
  simp [String.intercalate, String.intercalate.go]

namespace GenArray

theorem drawValues_length {σ : Type} (R : Rnd σ) (lo hi b : Int) (k : Nat) (s : σ) :
    (drawValues R lo hi b k s).1.length = k := by
  induction k generalizing s with
  | zero => rfl
  | succ k ih => simp [drawValues, ih]

theorem drawValues_mem {σ : Type} (R : Rnd σ) (lo hi b : Int)
    (hw : ∀ s, lo ≤ (R.wnextRange lo hi b s).1 ∧ (R.wnextRange lo hi b s).1 ≤ hi)
    (k : Nat) (s : σ) : ∀ v ∈ (drawValues R lo hi b k s).1, lo ≤ v ∧ v ≤ hi := by
  induction k generalizing s with
  | zero => simp [drawValues]
  | succ k ih =>
    intro v hv
    simp only [drawValues, List.mem_cons] at hv
    rcases hv with rfl | hv
    · exact hw s
    · exact ih _ v hv

theorem valueLoop_eq {σ : Type} (R : Rnd σ) (lo hi b n : Int) (k : Nat) (i : Int)
    (out : String) (s : σ) (hk : i + k = n) :
    valueLoop R lo hi b n k i out s =
      (out ++ " ".intercalate ((drawValues R lo hi b k s).1.map toString),
        (drawValues R lo hi b k s).2) := by
  induction k generalizing i out s with
  | zero => simp [valueLoop, drawValues, String.intercalate]
  | succ k ih =>
    rw [valueLoop]
    rw [ih (i + 1) _ _ (by push_cast at hk; omega)]
    cases k with
    | zero =>
      have : ¬ i + 1 < n := by push_cast at hk; omega
      simp [drawValues, this, String.intercalate, String.intercalate.go]
    | succ k =>
      have : i + 1 < n := by push_cast at hk; omega
      simp only [this, if_true]
      conv_rhs => rw [drawValues]
      simp only [List.map_cons]
      rw [drawValues, List.map_cons, intercalate_cons_cons]
      simp [drawValues, String.append_assoc]

theorem drawCases_length {σ : Type} (R : Rnd σ) (lo hi b : Int) (ns : List Int) (s : σ) :
    (drawCases R lo hi b ns s).1.length = ns.length := by
  induction ns generalizing s with
  | nil => rfl
  | cons n ns ih => simp [drawCases, ih]

theorem drawCases_sizes {σ : Type} (R : Rnd σ) (lo hi b : Int) (ns : List Int) (s : σ)
    (hns : ∀ n ∈ ns, 0 ≤ n) :
    (drawCases R lo hi b ns s).1.map (fun c => (c.length : Int)) = ns := by
  induction ns generalizing s with
  | nil => rfl
  | cons n ns ih =>
    have h0 : 0 ≤ n := hns n (List.mem_cons_self _ _)
    simp only [drawCases, List.map_cons, drawValues_length]
    rw [ih _ (fun x hx => hns x (List.mem_cons_of_mem _ hx)), Int.toNat_of_nonneg h0]

theorem drawCases_mem {σ : Type} (R : Rnd σ) (lo hi b : Int)
    (hw : ∀ s, lo ≤ (R.wnextRange lo hi b s).1 ∧ (R.wnextRange lo hi b s).1 ≤ hi)
    (ns : List Int) (s : σ) :
    ∀ c ∈ (drawCases R lo hi b ns s).1, ∀ v ∈ c, lo ≤ v ∧ v ≤ hi := by
  induction ns generalizing s with
  | nil => simp [drawCases]
  | cons n ns ih =>
    intro c hc
    simp only [drawCases, List.mem_cons] at hc
    rcases hc with rfl | hc
    · exact drawValues_mem R lo hi b hw _ _
    · exact ih _ c hc

theorem caseLoop_eq {σ : Type} (R : Rnd σ) (lo hi b : Int) (n_list : List Int)
    (hns : ∀ n ∈ n_list, 0 ≤ n) (k tc : Nat) (out : String) (s : σ)
    (hk : tc + k = n_list.length) :
    caseLoop R lo hi b n_list k (tc : Int) out s =
      (out ++ String.join ((drawCases R lo hi b (n_list.drop tc) s).1.map renderCase),
        (drawCases R lo hi b (n_list.drop tc) s).2) := by
  induction k generalizing tc out s with
  | zero =>
    have : n_list.drop tc = [] := List.drop_eq_nil_of_le (by omega)
    simp [caseLoop, this, drawCases, join_nil]
  | succ k ih =>
    have htc : tc < n_list.length := by omega
    have hdrop : n_list.drop tc = n_list.get ⟨tc, htc⟩ :: n_list.drop (tc + 1) :=
      List.drop_eq_getElem_cons htc
    have h0 : 0 ≤ n_list.get ⟨tc, htc⟩ := hns _ (List.get_mem _ _ _)
    rw [caseLoop, vecGet_natCast n_list tc htc]
    have hcast : ((tc : Int) + 1) = ((tc + 1 : Nat) : Int) := by push_cast; rfl
    rw [hcast, ih (tc + 1) _ _ (by omega), hdrop]
    rw [valueLoop_eq R lo hi b _ _ 0 _ s (by rw [Int.toNat_of_nonneg h0]; simp)]
    simp only [drawCases, List.map_cons, join_cons, renderCase, renderLine, drawValues_length,
      Int.toNat_of_nonneg h0, String.append_assoc]

theorem wrapLL_eq (x : Int) (h1 : -2 ^ 63 ≤ x) (h2 : x < 2 ^ 63) : wrapLL x = x := by
  unfold wrapLL
  omega

theorem wrapLL_int32 (x : Int) (h : IsInt32 x) : wrapLL x = x := by
  unfold IsInt32 at h
  exact wrapLL_eq x (by omega) (by omega)

theorem wrapLL_mul_int32 (x y : Int) (hx : IsInt32 x) (hy : IsInt32 y) :
    wrapLL (x * y) = x * y := by
  unfold IsInt32 at hx hy
  apply wrapLL_eq
  · nlinarith [mul_nonneg (by linarith : (0 : Int) ≤ x + 2 ^ 31) (by linarith : (0 : Int) ≤ 2 ^ 31 - y),
      mul_nonneg (by linarith : (0 : Int) ≤ 2 ^ 31 - x) (by linarith : (0 : Int) ≤ y + 2 ^ 31)]
  · nlinarith [mul_nonneg (by linarith : (0 : Int) ≤ x + 2 ^ 31) (by linarith : (0 : Int) ≤ y + 2 ^ 31),
      mul_nonneg (by linarith : (0 : Int) ≤ 2 ^ 31 - x) (by linarith : (0 : Int) ≤ 2 ^ 31 - y)]

/-- The size check of `generate` compares the exact product for 32-bit operands. -/
theorem sizeCheck_exact (test_count sum_n min_n : Int) (h1 : IsInt32 test_count)
    (h2 : IsInt32 sum_n) (h3 : IsInt32 min_n) :
    (wrapLL (wrapLL test_count * wrapLL min_n) > wrapLL sum_n) ↔ test_count * min_n > sum_n := by
  rw [wrapLL_int32 _ h1, wrapLL_int32 _ h2, wrapLL_int32 _ h3, wrapLL_mul_int32 _ _ h1 h3]

theorem generate_valid {σ : Type} (R : Rnd σ)
    (test_count sum_n min_n min_value max_value value_bias : Int) (seed : Option Int)
    (w : Module σ) (h32 : IsInt32 sum_n) (htc : 1 ≤ test_count) (hmin : 1 ≤ min_n)
    (hsum : test_count * min_n ≤ sum_n) (hval : min_value ≤ max_value) :
    generate R test_count sum_n min_n min_value max_value value_bias seed w =
      (.ok (caseLoop R min_value max_value value_bias
          (R.partition test_count sum_n min_n (applySeed R seed (ensureRegistered R w).rng)).1
          test_count.toNat 0 (toString test_count ++ "\n")
          (R.partition test_count sum_n min_n (applySeed R seed (ensureRegistered R w).rng)).2).1,
        ⟨(caseLoop R min_value max_value value_bias
          (R.partition test_count sum_n min_n (applySeed R seed (ensureRegistered R w).rng)).1
          test_count.toNat 0 (toString test_count ++ "\n")
          (R.partition test_count sum_n min_n (applySeed R seed (ensureRegistered R w).rng)).2).2,
          (ensureRegistered R w).registered⟩) := by
  have hs : IsInt32 sum_n := h32
  unfold IsInt32 at h32
  have hle1 : test_count ≤ test_count * min_n := by nlinarith
  have hle2 : min_n ≤ test_count * min_n := by nlinarith
  have h1 : IsInt32 test_count := ⟨by omega, by omega⟩
  have h3 : IsInt32 min_n := ⟨by omega, by omega⟩
  have hchk := sizeCheck_exact test_count sum_n min_n h1 hs h3
  unfold generate
  rw [if_neg (by omega), if_neg (by omega), if_neg (by rw [hchk]; omega), if_neg (by omega)]

/-- C6: for valid parameters, a `partition` that returns `test_count` sizes, each at least
`min_n`, summing to `sum_n`, and a `wnext` that stays in `[min_value, max_value]`, the output
is the line `test_count` followed, for each test case in order, by the line with its size and
a newline-terminated line of that many integers separated by single spaces; the sizes are at
least `min_n` and sum to `sum_n`, and every value lies in `[min_value, max_value]`. -/
theorem genArray_generate_format {σ : Type} (R : Rnd σ)
    (test_count sum_n min_n min_value max_value value_bias : Int) (seed : Option Int)
    (w : Module σ) (h32 : IsInt32 sum_n) (htc : 1 ≤ test_count) (hmin : 1 ≤ min_n)
    (hsum : test_count * min_n ≤ sum_n) (hval : min_value ≤ max_value)
    (hpart : ∀ s, ((R.partition test_count sum_n min_n s).1.length : Int) = test_count ∧
        (∀ x ∈ (R.partition test_count sum_n min_n s).1, min_n ≤ x) ∧
        (R.partition test_count sum_n min_n s).1.sum = sum_n)
    (hw : ∀ s, min_value ≤ (R.wnextRange min_value max_value value_bias s).1 ∧
        (R.wnextRange min_value max_value value_bias s).1 ≤ max_value) :
    ∃ cases : List (List Int),
      (generate R test_count sum_n min_n min_value max_value value_bias seed w).1
        = .ok (renderArrays cases) ∧
      (cases.length : Int) = test_count ∧
      (∀ c ∈ cases, min_n ≤ (c.length : Int)) ∧
      (cases.map fun c => (c.length : Int)).sum = sum_n ∧
      (∀ c ∈ cases, ∀ v ∈ c, min_value ≤ v ∧ v ≤ max_value) := by
  rw [generate_valid R _ _ _ _ _ _ seed w h32 htc hmin hsum hval]
  generalize applySeed R seed (ensureRegistered R w).rng = s0
  obtain ⟨hlen, hge, hsumn⟩ := hpart s0
  generalize (R.partition test_count sum_n min_n s0).1 = ns at hlen hge hsumn
  generalize (R.partition test_count sum_n min_n s0).2 = s1
  have hns : ∀ n ∈ ns, 0 ≤ n := fun n hn => by have := hge n hn; omega
  have hk : 0 + test_count.toNat = ns.length := by omega
  have hloop := caseLoop_eq R min_value max_value value_bias ns hns test_count.toNat 0
    (toString test_count ++ "\n") s1 hk
  simp only [Nat.cast_zero, List.drop_zero] at hloop
  have hsizes := drawCases_sizes R min_value max_value value_bias ns s1 hns
  refine ⟨(drawCases R min_value max_value value_bias ns s1).1, ?_, ?_, ?_, ?_, ?_⟩
  · rw [hloop, renderArrays, drawCases_length, hlen]
  · rw [drawCases_length, hlen]
  · intro c hc
    have : (c.length : Int) ∈ ns := by
      rw [← hsizes]
      exact List.mem_map.mpr ⟨c, hc, rfl⟩
    exact hge _ this
  · rw [hsizes, hsumn]
  · exact drawCases_mem R min_value max_value value_bias hw ns s1

/-- C7: for 32-bit arguments `generate` fails with an invalid-argument error exactly when
`test_count <= 0` or `min_n <= 0` or `test_count * min_n > sum_n` (the exact product) or
`min_value > max_value`; a rejected request leaves the engine as `ensureRegistered` left it,
so it never reaches `partition`. -/
theorem genArray_generate_reject_iff {σ : Type} (R : Rnd σ)
    (test_count sum_n min_n min_value max_value value_bias : Int) (seed : Option Int)
    (w : Module σ) (h1 : IsInt32 test_count) (h2 : IsInt32 sum_n) (h3 : IsInt32 min_n) :
    ((∃ msg, (generate R test_count sum_n min_n min_value max_value value_bias seed w).1
        = .error msg) ↔
      (test_count ≤ 0 ∨ min_n ≤ 0 ∨ test_count * min_n > sum_n ∨ min_value > max_value)) ∧
    ((test_count ≤ 0 ∨ min_n ≤ 0 ∨ test_count * min_n > sum_n ∨ min_value > max_value) →
      (generate R test_count sum_n min_n min_value max_value value_bias seed w).2
        = ensureRegistered R w) := by
  have hchk := sizeCheck_exact test_count sum_n min_n h1 h2 h3
  unfold generate
  by_cases c1 : test_count ≤ 0
  · simp [c1]
  by_cases c2 : min_n ≤ 0
  · simp [c1, c2]
  by_cases c3 : test_count * min_n > sum_n
  · have c3w := hchk.mpr c3
    simp [c1, c2, c3, c3w]
  by_cases c4 : min_value > max_value
  · have c3w : ¬ _ := fun h => c3 (hchk.mp h)
    simp [c1, c2, c3w, c4]
  · have c3w : ¬ _ := fun h => c3 (hchk.mp h)
    simp [c1, c2, c3, c3w, c4]

end GenArray

theorem lcgDraw_range (n : Int) (hn : 0 < n) (s : Nat) :
    0 ≤ (lcgDraw n s).1 ∧ (lcgDraw n s).1 < n := by
  unfold lcgDraw
  exact ⟨Int.emod_nonneg _ (by omega), Int.emod_lt_of_pos _ hn⟩

namespace GenArray

theorem genArray_generate_format_witness :
    (generate lcgRnd 2 5 1 1 10 0 (some 1) ⟨0, false⟩).1 = .ok "2\n4\n9 9 6 6\n1\n4\n" ∧
    ∃ cases : List (List Int),
      (generate lcgRnd 2 5 1 1 10 0 (some 1) ⟨0, false⟩).1 = .ok (renderArrays cases) ∧
      (cases.length : Int) = 2 ∧
      (∀ c ∈ cases, (1 : Int) ≤ (c.length : Int)) ∧
      (cases.map fun c => (c.length : Int)).sum = 5 ∧
      (∀ c ∈ cases, ∀ v ∈ c, (1 : Int) ≤ v ∧ v ≤ 10) :=
  ⟨rfl, genArray_generate_format lcgRnd 2 5 1 1 10 0 (some 1) ⟨0, false⟩
    (by decide) (by decide) (by decide) (by decide) (by decide)
    (fun s => by simp [lcgRnd])
    (fun s => by
      have h := lcgDraw_range (10 - 1 + 1) (by decide) s
      simp only [lcgRnd]
      omega)⟩

theorem genArray_generate_reject_iff_witness :
    ((∃ msg, (generate lcgRnd 3 5 2 1 10 0 none ⟨0, true⟩).1 = .error msg) ↔
      ((3 : Int) ≤ 0 ∨ (2 : Int) ≤ 0 ∨ (3 : Int) * 2 > 5 ∨ (1 : Int) > 10)) ∧
    (((3 : Int) ≤ 0 ∨ (2 : Int) ≤ 0 ∨ (3 : Int) * 2 > 5 ∨ (1 : Int) > 10) →
      (generate lcgRnd 3 5 2 1 10 0 none ⟨0, true⟩).2 = ensureRegistered lcgRnd ⟨0, true⟩) :=
  genArray_generate_reject_iff lcgRnd 3 5 2 1 10 0 none ⟨0, true⟩
    (by decide) (by decide) (by decide)

end GenArray

/-! ## Proofs: gen-bipartite-graph.cpp -/

namespace GenBipartite

theorem setInsert_mem (e x : Int × Int) (xs : List (Int × Int)) :
    x ∈ setInsert e xs ↔ x = e ∨ x ∈ xs := by
  induction xs with
  | nil => simp [setInsert]
  | cons y ys ih =>
    unfold setInsert
    by_cases h1 : e = y
    · subst h1
      simp
    · rw [if_neg h1]
      by_cases h2 : pairLt e y
      · rw [if_pos h2]
        simp
      · rw [if_neg h2]
        simp only [List.mem_cons, ih]
        tauto

theorem pairLt_trans {a b c : Int × Int} (h1 : pairLt a b) (h2 : pairLt b c) : pairLt a c := by
  unfold pairLt at *
  omega

theorem pairLt_ne {a b : Int × Int} (h : pairLt a b) : a ≠ b := by
  rintro rfl
  unfold pairLt at h
  omega

theorem pairLt_of_not {a b : Int × Int} (h1 : a ≠ b) (h2 : ¬ pairLt a b) : pairLt b a := by
  have h3 : ¬ (a.1 = b.1 ∧ a.2 = b.2) := fun h => h1 (Prod.ext h.1 h.2)
  unfold pairLt at *
  omega

theorem setInsert_sorted (e : Int × Int) (xs : List (Int × Int)) (h : xs.Pairwise pairLt) :
    (setInsert e xs).Pairwise pairLt := by
  induction xs with
  | nil => simp [setInsert]
  | cons y ys ih =>
    have hy := List.pairwise_cons.mp h
    unfold setInsert
    by_cases h1 : e = y
    · rw [if_pos h1]
      exact h
    · rw [if_neg h1]
      by_cases h2 : pairLt e y
      · rw [if_pos h2]
        refine List.pairwise_cons.mpr ⟨?_, h⟩
        intro z hz
        rcases List.mem_cons.mp hz with rfl | hz
        · exact h2
        · exact pairLt_trans h2 (hy.1 z hz)
      · rw [if_neg h2]
        refine List.pairwise_cons.mpr ⟨?_, ih hy.2⟩
        intro z hz
        rcases (setInsert_mem e z ys).mp hz with rfl | hz
        · exact pairLt_of_not h1 h2
        · exact hy.1 z hz

theorem setInsert_length_le (e : Int × Int) (xs : List (Int × Int)) :
    (setInsert e xs).length ≤ xs.length + 1 := by
  induction xs with
  | nil => simp [setInsert]
  | cons y ys ih =>
    unfold setInsert
    split_ifs <;> simp
    exact ih

/-- The invariant of the sampling loop: the set is increasing (hence duplicate-free), holds
at most `k` pairs, and every pair is inside `[0, n-1] × [0, m-1]`. -/
theorem edgeLoop_inv {σ : Type} (R : Rnd σ) (n m t : Int) (k : Nat)
    (hwn : ∀ s, 0 ≤ (R.wnext n t s).1 ∧ (R.wnext n t s).1 ≤ n - 1)
    (hwm : ∀ s, 0 ≤ (R.wnext m t s).1 ∧ (R.wnext m t s).1 ≤ m - 1)
    (fuel : Nat) (edges : List (Int × Int)) (s : σ) (es : List (Int × Int)) (s1 : σ)
    (hsorted : edges.Pairwise pairLt) (hlen : edges.length ≤ k)
    (hrange : ∀ e ∈ edges, (0 ≤ e.1 ∧ e.1 ≤ n - 1) ∧ (0 ≤ e.2 ∧ e.2 ≤ m - 1))
    (hres : edgeLoop R n m t k fuel edges s = some (es, s1)) :
    es.Pairwise pairLt ∧ es.length = k ∧
      ∀ e ∈ es, (0 ≤ e.1 ∧ e.1 ≤ n - 1) ∧ (0 ≤ e.2 ∧ e.2 ≤ m - 1) := by
  induction fuel generalizing edges s with
  | zero =>
    unfold edgeLoop at hres
    by_cases hlt : edges.length < k
    · simp [hlt] at hres
    · rw [if_neg hlt] at hres
      injection hres with hres
      injection hres with h1 h2
      subst h1
      exact ⟨hsorted, by omega, hrange⟩
  | succ fuel ih =>
    unfold edgeLoop at hres
    by_cases hlt : edges.length < k
    · rw [if_pos hlt] at hres
      refine ih _ _ (setInsert_sorted _ _ hsorted) ?_ ?_ hres
      · have := setInsert_length_le ((R.wnext n t s).1, (R.wnext m t (R.wnext n t s).2).1) edges
        omega
      · intro e he
        rcases (setInsert_mem _ _ _).mp he with rfl | he
        · exact ⟨hwn _, hwm _⟩
        · exact hrange e he
    · rw [if_neg hlt] at hres
      injection hres with hres
      injection hres with h1 h2
      subst h1
      exact ⟨hsorted, by omega, hrange⟩

/-- The fuel is only a bound: once the loop finishes within `fuel` iterations, more fuel
gives the same result. -/
theorem edgeLoop_fuel_succ {σ : Type} (R : Rnd σ) (n m t : Int) (k : Nat) (fuel : Nat)
    (edges : List (Int × Int)) (s : σ) (r : List (Int × Int) × σ)
    (h : edgeLoop R n m t k fuel edges s = some r) :
    edgeLoop R n m t k (fuel + 1) edges s = some r := by
  induction fuel generalizing edges s with
  | zero =>
    unfold edgeLoop at h ⊢
    by_cases hlt : edges.length < k
    · simp [hlt] at h
    · rw [if_neg hlt] at h
      rw [if_neg hlt]
      exact h
  | succ fuel ih =>
    rw [edgeLoop] at h
    rw [edgeLoop]
    by_cases hlt : edges.length < k
    · rw [if_pos hlt] at h
      rw [if_pos hlt]
      exact ih _ _ h
    · rw [if_neg hlt] at h
      rw [if_neg hlt]
      exact h

theorem edgeLoop_fuel_mono {σ : Type} (R : Rnd σ) (n m t : Int) (k : Nat) (fuel extra : Nat)
    (edges : List (Int × Int)) (s : σ) (r : List (Int × Int) × σ)
    (h : edgeLoop R n m t k fuel edges s = some r) :
    edgeLoop R n m t k (fuel + extra) edges s = some r := by
  induction extra with
  | zero => exact h
  | succ extra ih => exact edgeLoop_fuel_succ R n m t k (fuel + extra) edges s r ih

theorem generate_fuel_mono {σ : Type} (bits : Nat) (R : Rnd σ) (n m : Int) (k : Nat)
    (seed : Option Int) (fuel extra : Nat) (w : Module σ)
    (r : Except String String × Module σ)
    (h : generate bits R n m k seed fuel w = some r) :
    generate bits R n m k seed (fuel + extra) w = some r := by
  unfold generate at h ⊢
  dsimp only at h ⊢
  split_ifs at h ⊢
  · exact h
  · exact h
  · exact h
  · cases hloop : edgeLoop R n m
        (R.nextRange (-2) 2 (applySeed R seed (ensureRegistered R w).rng)).1 k fuel []
        (R.nextRange (-2) 2 (applySeed R seed (ensureRegistered R w).rng)).2 with
    | none => rw [hloop] at h; cases h
    | some e =>
      rw [edgeLoop_fuel_mono R n m _ k fuel extra [] _ e hloop]
      rw [hloop] at h
      exact h

theorem emit_eq (pa pb : List Int) (es : List (Int × Int)) (out : String) :
    emit pa pb es out = out ++ String.join (es.map fun e =>
      toString (vecGet pa e.1) ++ " " ++ toString (vecGet pb e.2) ++ "\n") := by
  induction es generalizing out with
  | nil => simp [emit, join_nil]
  | cons e es ih =>
    rw [emit, ih, List.map_cons, join_cons]
    simp [String.append_assoc]

/-- A duplicate-free list of `n * m` pairs inside `[1, n] × [1, m]` holds every such pair. -/
theorem complete_of_card (n m : Int) (pairs : List (Int × Int)) (hnd : pairs.Nodup)
    (hn : 0 ≤ n) (hm : 0 ≤ m)
    (hlen : (pairs.length : Int) = n * m)
    (hrange : ∀ e ∈ pairs, 1 ≤ e.1 ∧ e.1 ≤ n ∧ 1 ≤ e.2 ∧ e.2 ≤ m)
    (l r : Int) (hl1 : 1 ≤ l) (hl2 : l ≤ n) (hr1 : 1 ≤ r) (hr2 : r ≤ m) : (l, r) ∈ pairs := by
  have hsub : pairs.toFinset ⊆ Finset.Icc 1 n ×ˢ Finset.Icc 1 m := by
    intro e he
    have := hrange e (List.mem_toFinset.mp he)
    simp only [Finset.mem_product, Finset.mem_Icc]
    tauto
  have hcard : (Finset.Icc 1 n ×ˢ Finset.Icc 1 m).card ≤ pairs.toFinset.card := by
    rw [List.toFinset_card_of_nodup hnd, Finset.card_product, Int.card_Icc, Int.card_Icc]
    have h1 : (n + 1 - 1).toNat = n.toNat := by congr 1; omega
    have h2 : (m + 1 - 1).toNat = m.toNat := by congr 1; omega
    rw [h1, h2]
    have h3 : ((n.toNat * m.toNat : Nat) : Int) = n * m := by
      push_cast
      rw [Int.toNat_of_nonneg hn, Int.toNat_of_nonneg hm]
    omega
  have heq := Finset.eq_of_subset_of_card_le hsub hcard
  have : (l, r) ∈ pairs.toFinset := by
    rw [heq]
    simp only [Finset.mem_product, Finset.mem_Icc]
    tauto
  exact List.mem_toFinset.mp this

theorem maxEdges_exact (bits : Nat) (hbits : 62 ≤ bits) (n m : Int) (hn : 0 < n) (hm : 0 < m)
    (hn32 : n < 2 ^ 31) (hm32 : m < 2 ^ 31) :
    (((toSizeT bits n * toSizeT bits m) % 2 ^ bits : Nat) : Int) = n * m := by
  have hpow : (2 : Int) ^ 62 ≤ 2 ^ bits := pow_le_pow_right₀ (by norm_num) hbits
  have hpowN : (2 : Nat) ^ 62 ≤ 2 ^ bits := pow_le_pow_right₀ (by norm_num) hbits
  have hprod : n * m < 2 ^ 62 := by nlinarith
  have hn' : toSizeT bits n = n.toNat := by
    unfold toSizeT
    rw [Int.emod_eq_of_lt (by omega) (by omega)]
  have hm' : toSizeT bits m = m.toNat := by
    unfold toSizeT
    rw [Int.emod_eq_of_lt (by omega) (by omega)]
  rw [hn', hm']
  have hc : ((n.toNat * m.toNat : Nat) : Int) = n * m := by
    push_cast
    rw [Int.toNat_of_nonneg (by omega), Int.toNat_of_nonneg (by omega)]
  have hlt : n.toNat * m.toNat < 2 ^ bits := by
    have : ((n.toNat * m.toNat : Nat) : Int) < ((2 ^ bits : Nat) : Int) := by
      rw [hc]; push_cast; omega
    exact_mod_cast this
  rw [Nat.mod_eq_of_lt hlt, hc]

theorem bipartite_generate_valid {σ : Type} (bits : Nat) (R : Rnd σ) (n m : Int) (k : Nat)
    (seed : Option Int) (fuel : Nat) (w : Module σ) (hbits : 62 ≤ bits)
    (hn32 : n < 2 ^ 31) (hm32 : m < 2 ^ 31) (hn : 1 ≤ n) (hm : 1 ≤ m)
    (hk : (k : Int) ≤ n * m) :
    generate bits R n m k seed fuel w =
      match edgeLoop R n m (R.nextRange (-2) 2 (applySeed R seed (ensureRegistered R w).rng)).1
          k fuel [] (R.nextRange (-2) 2 (applySeed R seed (ensureRegistered R w).rng)).2 with
      | none => none
      | some (edges, s) =>
        some (.ok (emit (R.perm n 1 (R.shuffle (Int × Int) edges s).2).1
            (R.perm m 1 (R.perm n 1 (R.shuffle (Int × Int) edges s).2).2).1
            (R.shuffle (Int × Int) edges s).1
            (toString n ++ " " ++ toString m ++ " " ++
              toString (R.shuffle (Int × Int) edges s).1.length ++ "\n")),
          ⟨(R.perm m 1 (R.perm n 1 (R.shuffle (Int × Int) edges s).2).2).2,
            (ensureRegistered R w).registered⟩) := by
  have hmax := maxEdges_exact bits hbits n m (by omega) (by omega) hn32 hm32
  have hnk : ¬ k > (toSizeT bits n * toSizeT bits m) % 2 ^ bits := by
    intro h
    have : (((toSizeT bits n * toSizeT bits m) % 2 ^ bits : Nat) : Int) < (k : Int) := by
      exact_mod_cast h
    omega
  unfold generate
  simp only [if_neg (show ¬ n ≤ 0 by omega), if_neg (show ¬ m ≤ 0 by omega), if_neg hnk]

/-- C4: for `n >= 1`, `m >= 1`, `k <= n*m`, draws `wnext(n, t)` in `[0, n-1]` and
`wnext(m, t)` in `[0, m-1]`, `perm(n, 1)` and `perm(m, 1)` permutations of `1..n` and `1..m`
and `shuffle` a rearrangement: whenever the sampling loop finishes, the output is the header
`n m k` followed by exactly `k` lines `left right` with `1 <= left <= n`, `1 <= right <= m`,
the `k` pairs pairwise distinct; with `k = n*m` every pair of `[1, n] × [1, m]` is listed. -/
theorem genBipartite_generate_format {σ : Type} (bits : Nat) (R : Rnd σ) (n m : Int) (k : Nat)
    (seed : Option Int) (fuel : Nat) (w : Module σ) (hbits : 62 ≤ bits)
    (hn32 : n < 2 ^ 31) (hm32 : m < 2 ^ 31) (hn : 1 ≤ n) (hm : 1 ≤ m)
    (hk : (k : Int) ≤ n * m)
    (hwn : ∀ t s, 0 ≤ (R.wnext n t s).1 ∧ (R.wnext n t s).1 ≤ n - 1)
    (hwm : ∀ t s, 0 ≤ (R.wnext m t s).1 ∧ (R.wnext m t s).1 ≤ m - 1)
    (hpa : ∀ s, (R.perm n 1 s).1.Perm (labels n 1))
    (hpb : ∀ s, (R.perm m 1 s).1.Perm (labels m 1))
    (hsh : ∀ l s, (R.shuffle (Int × Int) l s).1.Perm l)
    (res : Except String String) (w1 : Module σ)
    (hfin : generate bits R n m k seed fuel w = some (res, w1)) :
    ∃ pairs : List (Int × Int),
      res = .ok (renderBipartite n m pairs) ∧
      pairs.length = k ∧
      (∀ e ∈ pairs, 1 ≤ e.1 ∧ e.1 ≤ n ∧ 1 ≤ e.2 ∧ e.2 ≤ m) ∧
      pairs.Nodup ∧
      ((k : Int) = n * m → ∀ l r, 1 ≤ l → l ≤ n → 1 ≤ r → r ≤ m → (l, r) ∈ pairs) := by
  rw [bipartite_generate_valid bits R n m k seed fuel w hbits hn32 hm32 hn hm hk] at hfin
  generalize R.nextRange (-2) 2 (applySeed R seed (ensureRegistered R w).rng) = t0 at hfin
  cases hloop : edgeLoop R n m t0.1 k fuel [] t0.2 with
  | none => rw [hloop] at hfin; cases hfin
  | some r =>
    obtain ⟨edges, s1⟩ := r
    rw [hloop] at hfin
    simp only [Option.some.injEq, Prod.mk.injEq] at hfin
    obtain ⟨hres, -⟩ := hfin
    obtain ⟨hsorted, hlen, hrange⟩ := edgeLoop_inv R n m t0.1 k (hwn _) (hwm _) fuel [] t0.2
      edges s1 List.Pairwise.nil (Nat.zero_le _) (by simp) hloop
    have hshp := hsh edges s1
    generalize (R.shuffle (Int × Int) edges s1).2 = s2 at hres
    generalize (R.shuffle (Int × Int) edges s1).1 = e at hres hshp
    have hpap := hpa s2
    generalize (R.perm n 1 s2).2 = s3 at hres
    generalize (R.perm n 1 s2).1 = pa at hres hpap
    have hpbp := hpb s3
    generalize (R.perm m 1 s3).1 = pb at hres hpbp
    have hpalen : (pa.length : Int) = n := by
      rw [hpap.length_eq, labels_length, Int.toNat_of_nonneg (by omega)]
    have hpblen : (pb.length : Int) = m := by
      rw [hpbp.length_eq, labels_length, Int.toNat_of_nonneg (by omega)]
    have hpand : pa.Nodup := hpap.nodup_iff.mpr (labels_nodup n 1)
    have hpbnd : pb.Nodup := hpbp.nodup_iff.mpr (labels_nodup m 1)
    have hend : e.Nodup :=
      hshp.nodup_iff.mpr (hsorted.imp fun h => pairLt_ne h)
    have herange : ∀ x ∈ e, (0 ≤ x.1 ∧ x.1 ≤ n - 1) ∧ (0 ≤ x.2 ∧ x.2 ≤ m - 1) :=
      fun x hx => hrange x (hshp.mem_iff.mp hx)
    have hpairs_range : ∀ x ∈ e.map (fun x => (vecGet pa x.1, vecGet pb x.2)),
        1 ≤ x.1 ∧ x.1 ≤ n ∧ 1 ≤ x.2 ∧ x.2 ≤ m := by
      intro x hx
      obtain ⟨y, hy, rfl⟩ := List.mem_map.mp hx
      have hyr := herange y hy
      have h1 := labels_mem n 1 _ (hpap.mem_iff.mp
        (vecGet_mem pa y.1 hyr.1.1 (by omega)))
      have h2 := labels_mem m 1 _ (hpbp.mem_iff.mp
        (vecGet_mem pb y.2 hyr.2.1 (by omega)))
      dsimp only
      omega
    have hpairs_nd : (e.map (fun x => (vecGet pa x.1, vecGet pb x.2))).Nodup := by
      refine List.Nodup.map_on ?_ hend
      intro x hx y hy hxy
      have hxr := herange x hx
      have hyr := herange y hy
      simp only [Prod.mk.injEq] at hxy
      have h1 := vecGet_inj pa hpand x.1 y.1 hxr.1.1 (by omega) hyr.1.1 (by omega) hxy.1
      have h2 := vecGet_inj pb hpbnd x.2 y.2 hxr.2.1 (by omega) hyr.2.1 (by omega) hxy.2
      exact Prod.ext h1 h2
    have hpairs_len : (e.map (fun x => (vecGet pa x.1, vecGet pb x.2))).length = k := by
      rw [List.length_map, hshp.length_eq, hlen]
    refine ⟨e.map (fun x => (vecGet pa x.1, vecGet pb x.2)), ?_, hpairs_len, hpairs_range,
      hpairs_nd, ?_⟩
    · rw [← hres, emit_eq, renderBipartite, List.length_map, List.map_map]
      rfl
    · intro hkm l r hl1 hl2 hr1 hr2
      exact complete_of_card n m _ hpairs_nd (by omega) (by omega)
        (by rw [hpairs_len]; exact hkm) hpairs_range l r hl1 hl2 hr1 hr2

theorem genBipartite_generate_format_witness :
    generate 64 lcgRnd 3 3 9 (some 1) 20 ⟨0, false⟩ =
      some (.ok "3 3 9\n2 3\n2 1\n3 2\n3 3\n3 1\n1 2\n1 3\n1 1\n2 2\n", ⟨22317, true⟩) ∧
    ∃ pairs : List (Int × Int),
      (Except.ok "3 3 9\n2 3\n2 1\n3 2\n3 3\n3 1\n1 2\n1 3\n1 1\n2 2\n" : Except String String)
        = .ok (renderBipartite 3 3 pairs) ∧
      pairs.length = 9 ∧
      (∀ e ∈ pairs, 1 ≤ e.1 ∧ e.1 ≤ 3 ∧ 1 ≤ e.2 ∧ e.2 ≤ 3) ∧
      pairs.Nodup ∧
      (((9 : Nat) : Int) = 3 * 3 → ∀ l r, 1 ≤ l → l ≤ 3 → 1 ≤ r → r ≤ 3 → (l, r) ∈ pairs) :=
  ⟨rfl, genBipartite_generate_format 64 lcgRnd 3 3 9 (some 1) 20 ⟨0, false⟩ (by decide)
    (by decide) (by decide) (by decide) (by decide) (by decide)
    (fun _ s => by
      have h := lcgDraw_range 3 (by decide) s
      simp only [lcgRnd]
      omega)
    (fun _ s => by
      have h := lcgDraw_range 3 (by decide) s
      simp only [lcgRnd]
      omega)
    (fun s => by simp only [lcgRnd, labels]; exact List.rotate_perm _ _)
    (fun s => by simp only [lcgRnd, labels]; exact List.rotate_perm _ _)
    (fun l s => by simp only [lcgRnd]; exact List.rotate_perm _ _) _ _ rfl⟩

/-- C5: for 32-bit `n`, `m` and a `size_t` of at least 62 bits, `generate` fails with an
invalid-argument error exactly when `n <= 0` or `m <= 0` or `k > n*m` (the exact product);
a rejected call returns with the engine as `ensureRegistered` left it, so no draw
(`next`, `wnext`, `shuffle`, `perm`) and no `setSeed` was made. -/
theorem genBipartite_generate_reject_iff {σ : Type} (bits : Nat) (R : Rnd σ) (n m : Int)
    (k : Nat) (seed : Option Int) (fuel : Nat) (w : Module σ) (hbits : 62 ≤ bits)
    (hn32 : IsInt32 n) (hm32 : IsInt32 m) :
    ((∃ msg w1, generate bits R n m k seed fuel w = some (.error msg, w1)) ↔
      (n ≤ 0 ∨ m ≤ 0 ∨ (k : Int) > n * m)) ∧
    ((n ≤ 0 ∨ m ≤ 0 ∨ (k : Int) > n * m) →
      ∃ msg, generate bits R n m k seed fuel w = some (.error msg, ensureRegistered R w)) := by
  by_cases c1 : n ≤ 0
  · have h : generate bits R n m k seed fuel w =
        some (.error "n must be positive", ensureRegistered R w) := by
      unfold generate
      simp only [if_pos c1]
    exact ⟨⟨fun _ => Or.inl c1, fun _ => ⟨_, _, h⟩⟩, fun _ => ⟨_, h⟩⟩
  by_cases c2 : m ≤ 0
  · have h : generate bits R n m k seed fuel w =
        some (.error "m must be positive", ensureRegistered R w) := by
      unfold generate
      simp only [if_neg c1, if_pos c2]
    exact ⟨⟨fun _ => Or.inr (Or.inl c2), fun _ => ⟨_, _, h⟩⟩, fun _ => ⟨_, h⟩⟩
  have hmax := maxEdges_exact bits hbits n m (by omega) (by omega) hn32.2 hm32.2
  by_cases c3 : (k : Int) > n * m
  · have hk : k > (toSizeT bits n * toSizeT bits m) % 2 ^ bits := by
      have : (((toSizeT bits n * toSizeT bits m) % 2 ^ bits : Nat) : Int) < (k : Int) := by
        omega
      exact_mod_cast this
    have h : generate bits R n m k seed fuel w =
        some (.error "k must not exceed n * m", ensureRegistered R w) := by
      unfold generate
      simp only [if_neg c1, if_neg c2, if_pos hk]
    exact ⟨⟨fun _ => Or.inr (Or.inr c3), fun _ => ⟨_, _, h⟩⟩, fun _ => ⟨_, h⟩⟩
  · have hcond : ¬ (n ≤ 0 ∨ m ≤ 0 ∨ (k : Int) > n * m) := by
      rintro (h | h | h)
      · exact c1 h
      · exact c2 h
      · exact c3 h
    refine ⟨⟨fun h => ?_, fun h => absurd h hcond⟩, fun h => absurd h hcond⟩
    exfalso
    obtain ⟨msg, w1, h⟩ := h
    rw [bipartite_generate_valid bits R n m k seed fuel w hbits hn32.2 hm32.2 (by omega)
      (by omega) (by omega)] at h
    generalize R.nextRange (-2) 2 (applySeed R seed (ensureRegistered R w).rng) = t0 at h
    cases hloop : edgeLoop R n m t0.1 k fuel [] t0.2 with
    | none => rw [hloop] at h; cases h
    | some r =>
      rw [hloop] at h
      simp only [Option.some.injEq, Prod.mk.injEq, reduceCtorEq, false_and] at h

theorem genBipartite_generate_reject_iff_witness :
    ((∃ msg w1, generate 64 lcgRnd 3 3 10 (some 1) 20 ⟨7, true⟩ = some (.error msg, w1)) ↔
      ((3 : Int) ≤ 0 ∨ (3 : Int) ≤ 0 ∨ ((10 : Nat) : Int) > 3 * 3)) ∧
    (((3 : Int) ≤ 0 ∨ (3 : Int) ≤ 0 ∨ ((10 : Nat) : Int) > 3 * 3) →
      ∃ msg, generate 64 lcgRnd 3 3 10 (some 1) 20 ⟨7, true⟩ =
        some (.error msg, ensureRegistered lcgRnd ⟨7, true⟩)) :=
  genBipartite_generate_reject_iff 64 lcgRnd 3 3 10 (some 1) 20 ⟨7, true⟩
    (by decide) (by decide) (by decide)

end GenBipartite

/-! ## Proofs: the parent-drawing loop -/

theorem drawParents_spec {σ : Type} (R : Rnd σ) (n t : Int)
    (hw : ∀ i s, 1 ≤ i → 0 ≤ (R.wnext i t s).1 ∧ (R.wnext i t s).1 ≤ i - 1)
    (k : Nat) (i : Int) (p : List Int) (s : σ) (hk : i + k = n) (hi : 1 ≤ i)
    (hlen : (p.length : Int) = n)
    (hinv : ∀ j, 1 ≤ j → j < i → 0 ≤ vecGet p j ∧ vecGet p j ≤ j - 1) :
    ((drawParents R t k i p s).1.length : Int) = n ∧
      ∀ j, 1 ≤ j → j < n →
        0 ≤ vecGet (drawParents R t k i p s).1 j ∧ vecGet (drawParents R t k i p s).1 j ≤ j - 1 := by
  induction k generalizing i p s with
  | zero =>
    simp only [drawParents]
    refine ⟨hlen, fun j h1 h2 => hinv j h1 ?_⟩
    simp at hk
    omega
  | succ k ih =>
    rw [drawParents]
    apply ih
    · push_cast at hk; omega
    · omega
    · rw [vecSet_length]; exact hlen
    · intro j h1 h2
      by_cases hji : j = i
      · subst hji
        rw [vecGet_vecSet_eq _ _ _ (by omega) (by push_cast at hk; omega)]
        exact hw j s hi
      · rw [vecGet_vecSet_ne _ _ _ _ (fun h => hji h.symm)]
        exact hinv j h1 (by omega)

theorem parents_spec {σ : Type} (R : Rnd σ) (n t : Int)
    (hw : ∀ i s, 1 ≤ i → 0 ≤ (R.wnext i t s).1 ∧ (R.wnext i t s).1 ≤ i - 1)
    (hn : 1 ≤ n) (s : σ) :
    (((parents R n t s).1.length : Int) = n) ∧
      ∀ j, 1 ≤ j → j < n →
        0 ≤ vecGet (parents R n t s).1 j ∧ vecGet (parents R n t s).1 j ≤ j - 1 := by
  unfold parents
  apply drawParents_spec R n t hw
  · rw [Int.toNat_of_nonneg (by omega)]; omega
  · exact le_refl _
  · rw [List.length_replicate, Int.toNat_of_nonneg (by omega)]
  · intro j h1 h2
    omega

/-! ## Proofs: gen-rooted-tree-graph.cpp -/

namespace GenRootedTree

theorem identityPerm_eq_labels (n : Int) : identityPerm n = labels n 0 := by
  simp [identityPerm, labels]

theorem relabel_spec {σ : Type} (R : Rnd σ) (n : Int) (hn : 1 ≤ n)
    (hsh : ∀ l s, (R.shuffle Int l s).1.Perm l) (s : σ) :
    (relabel R n s).1.Perm (labels n 0) ∧ vecGet (relabel R n s).1 0 = 0 := by
  obtain ⟨N, hN⟩ : ∃ N, n.toNat = N + 1 := ⟨n.toNat - 1, by omega⟩
  have hid : identityPerm n = 0 :: (List.range N).map fun (i : Nat) => ((i + 1 : Nat) : Int) := by
    simp [identityPerm, hN, List.range_succ_eq_map, Function.comp_def]
  rw [← identityPerm_eq_labels, relabel, hid, shuffleTail]
  exact ⟨List.Perm.cons _ (hsh _ _), by simp [vecGet]⟩

theorem fillParents_length (perm p : List Int) (k : Nat) (i : Int) (pp : List Int) :
    (fillParents perm p k i pp).length = pp.length := by
  induction k generalizing i pp with
  | zero => rfl
  | succ k ih => rw [fillParents, ih, vecSet_length]

theorem fillParents_spec (perm p : List Int) (n : Int)
    (hinj : ∀ i j, 1 ≤ i → i < n → 1 ≤ j → j < n → vecGet perm i = vecGet perm j → i = j)
    (hrange : ∀ i, 1 ≤ i → i < n → 1 ≤ vecGet perm i ∧ vecGet perm i ≤ n - 1)
    (k : Nat) (i : Int) (pp : List Int) (hk : i + k = n) (hi : 1 ≤ i)
    (hlen : (pp.length : Int) = n - 1)
    (hinv : ∀ j, 1 ≤ j → j < i →
      vecGet pp (vecGet perm j - 1) = vecGet perm (vecGet p j) + 1) :
    ∀ j, 1 ≤ j → j < n →
      vecGet (fillParents perm p k i pp) (vecGet perm j - 1) = vecGet perm (vecGet p j) + 1 := by
  induction k generalizing i pp with
  | zero =>
    intro j h1 h2
    simp at hk
    exact hinv j h1 (by omega)
  | succ k ih =>
    rw [fillParents]
    have hin : i < n := by push_cast at hk; omega
    apply ih
    · push_cast at hk; omega
    · omega
    · rw [vecSet_length]; exact hlen
    · intro j h1 h2
      have hri := hrange i hi hin
      by_cases hji : j = i
      · subst hji
        rw [vecGet_vecSet_eq _ _ _ (by omega) (by omega)]
      · have hne : vecGet perm i - 1 ≠ vecGet perm j - 1 := by
          intro h
          exact hji (hinj j i h1 (by omega) hi hin (by omega))
        rw [vecGet_vecSet_ne _ _ _ _ hne]
        exact hinv j h1 (by omega)

theorem emitLoop_eq (pp : List Int) (k i : Nat) (out : String) (hk : i + k = pp.length) :
    emitLoop pp k i out = out ++ " ".intercalate ((pp.drop i).map toString) := by
  induction k generalizing i out with
  | zero =>
    have : pp.drop i = [] := List.drop_eq_nil_of_le (by omega)
    simp [emitLoop, this, String.intercalate]
  | succ k ih =>
    have hi : i < pp.length := by omega
    have hdrop : pp.drop i = pp.get ⟨i, hi⟩ :: pp.drop (i + 1) := List.drop_eq_getElem_cons hi
    have hget : pp.getD i 0 = pp.get ⟨i, hi⟩ := by
      simp [List.getD_eq_getElem?_getD, List.getElem?_eq_getElem hi]
    rw [emitLoop, ih (i + 1) _ (by omega), hdrop, hget]
    cases k with
    | zero =>
      have hlast : pp.drop (i + 1) = [] := List.drop_eq_nil_of_le (by omega)
      have hnot : ¬ i + 1 < pp.length := by omega
      simp [hlast, hnot, String.intercalate, String.intercalate.go]
    | succ k =>
      have hi1 : i + 1 < pp.length := by omega
      have hdrop1 : pp.drop (i + 1) = pp.get ⟨i + 1, hi1⟩ :: pp.drop (i + 1 + 1) :=
        List.drop_eq_getElem_cons hi1
      rw [hdrop1]
      simp only [List.map_cons]
      conv_rhs => rw [intercalate_cons_cons]
      simp [hi1, String.append_assoc]

theorem parentOf_relabel (perm p pp : List Int) (n : Int)
    (hfill : ∀ j, 1 ≤ j → j < n →
      vecGet pp (vecGet perm j - 1) = vecGet perm (vecGet p j) + 1)
    (i : Int) (h1 : 1 ≤ i) (h2 : i < n) :
    parentOf pp (vecGet perm i + 1) = vecGet perm (vecGet p i) + 1 := by
  unfold parentOf
  have : vecGet perm i + 1 - 2 = vecGet perm i - 1 := by omega
  rw [this]
  exact hfill i h1 h2

theorem chain_to_root (perm p pp : List Int) (n : Int) (hroot : vecGet perm 0 = 0)
    (hp : ∀ j, 1 ≤ j → j < n → 0 ≤ vecGet p j ∧ vecGet p j ≤ j - 1)
    (hfill : ∀ j, 1 ≤ j → j < n →
      vecGet pp (vecGet perm j - 1) = vecGet perm (vecGet p j) + 1)
    (i : Nat) (hi : (i : Int) < n) :
    ∃ steps, (parentOf pp)^[steps] (vecGet perm i + 1) = 1 := by
  induction i using Nat.strong_induction_on with
  | _ i ih =>
    by_cases h0 : i = 0
    · subst h0
      exact ⟨0, by simp [hroot]⟩
    · have h1 : (1 : Int) ≤ i := by omega
      have hpi := hp i h1 hi
      obtain ⟨q, hq⟩ := Int.eq_ofNat_of_zero_le hpi.1
      obtain ⟨steps, hsteps⟩ := ih q (by omega) (by omega)
      refine ⟨steps + 1, ?_⟩
      rw [Function.iterate_succ_apply, parentOf_relabel perm p pp n hfill i h1 hi, hq]
      exact hsteps

/-- C2: for `n >= 1`, draws `wnext(i, t)` in `[0, i-1]` and `shuffle` a rearrangement, the
output is the line `n` followed by one line of exactly `n-1` parent labels; entry `j` is the
parent of the node labelled `j+2` and lies in `[1, n]`; following parent links from every
node `2..n` reaches node `1`; and the node labelled `perm[i]+1` has parent `perm[p[i]]+1`,
where `perm` rearranges `0..n-1` and keeps `perm[0] = 0`. -/
theorem genRootedTree_generate_format {σ : Type} (R : Rnd σ) (n t : Int) (seed : Option Int)
    (w : Module σ) (hn : 1 ≤ n)
    (hw : ∀ i s, 1 ≤ i → 0 ≤ (R.wnext i t s).1 ∧ (R.wnext i t s).1 ≤ i - 1)
    (hsh : ∀ l s, (R.shuffle Int l s).1.Perm l) :
    ∃ pp : List Int,
      (generate R n t seed w).1 = .ok (renderRooted n pp) ∧
      (pp.length : Int) = n - 1 ∧
      (∀ x ∈ pp, 1 ≤ x ∧ x ≤ n) ∧
      (∀ v, 2 ≤ v → v ≤ n → ∃ steps, (parentOf pp)^[steps] v = 1) ∧
      (relabel R n (parents R n t (applySeed R seed (ensureRegistered R w).rng)).2).1.Perm
        (identityPerm n) ∧
      vecGet (relabel R n (parents R n t (applySeed R seed (ensureRegistered R w).rng)).2).1 0
        = 0 ∧
      ∀ i, 1 ≤ i → i ≤ n - 1 →
        parentOf pp
          (vecGet (relabel R n
            (parents R n t (applySeed R seed (ensureRegistered R w).rng)).2).1 i + 1)
        = vecGet (relabel R n (parents R n t (applySeed R seed (ensureRegistered R w).rng)).2).1
            (vecGet (parents R n t (applySeed R seed (ensureRegistered R w).rng)).1 i) + 1 := by
  have hgen : (generate R n t seed w).1 = .ok (renderRooted n (parentLabels
      (relabel R n (parents R n t (applySeed R seed (ensureRegistered R w).rng)).2).1
      (parents R n t (applySeed R seed (ensureRegistered R w).rng)).1 n)) := by
    unfold generate
    simp only [if_neg (show ¬ n ≤ 0 by omega)]
    rw [emitLoop_eq _ _ 0 _ (by simp)]
    simp [renderRooted]
  obtain ⟨-, hp⟩ := parents_spec R n t hw hn (applySeed R seed (ensureRegistered R w).rng)
  obtain ⟨hperm, hroot⟩ := relabel_spec R n hn hsh
    (parents R n t (applySeed R seed (ensureRegistered R w).rng)).2
  generalize (parents R n t (applySeed R seed (ensureRegistered R w).rng)).1 = p at hgen hp
  generalize (relabel R n (parents R n t (applySeed R seed (ensureRegistered R w).rng)).2).1
    = perm at hgen hperm hroot
  obtain ⟨hplen, hnd, hprange, hsurj⟩ := perm_facts n (by omega) perm hperm
  have hinj0 : ∀ i j, 0 ≤ i → i < n → 0 ≤ j → j < n → vecGet perm i = vecGet perm j → i = j :=
    fun i j hi0 hi1 hj0 hj1 h =>
      vecGet_inj perm hnd i j hi0 (by omega) hj0 (by omega) h
  have hrange : ∀ i, 1 ≤ i → i < n → 1 ≤ vecGet perm i ∧ vecGet perm i ≤ n - 1 := by
    intro i h1 h2
    have hr := hprange i (by omega) h2
    have hne : vecGet perm i ≠ 0 := by
      intro h
      have := hinj0 i 0 (by omega) h2 (le_refl _) (by omega) (h.trans hroot.symm)
      omega
    omega
  have hpplen : ((parentLabels perm p n).length : Int) = n - 1 := by
    rw [parentLabels, fillParents_length, List.length_replicate,
      Int.toNat_of_nonneg (by omega)]
  have hfill : ∀ j, 1 ≤ j → j < n →
      vecGet (parentLabels perm p n) (vecGet perm j - 1) = vecGet perm (vecGet p j) + 1 := by
    unfold parentLabels
    apply fillParents_spec perm p n
      (fun i j hi0 hi1 hj0 hj1 h => hinj0 i j (by omega) hi1 (by omega) hj1 h) hrange
    · rw [Int.toNat_of_nonneg (by omega)]; omega
    · exact le_refl _
    · rw [List.length_replicate, Int.toNat_of_nonneg (by omega)]
    · intro j h1 h2
      omega
  generalize parentLabels perm p n = pp at hgen hpplen hfill
  have hlabel : ∀ v, 2 ≤ v → v ≤ n → ∃ i, 1 ≤ i ∧ i < n ∧ vecGet perm i + 1 = v := by
    intro v h1 h2
    obtain ⟨i, hi0, hi1, hi⟩ := hsurj (v - 1) (by omega) (by omega)
    have hne : i ≠ 0 := by
      rintro rfl
      omega
    exact ⟨i, by omega, hi1, by omega⟩
  refine ⟨pp, hgen, hpplen, ?_, ?_, ?_, hroot, ?_⟩
  · intro x hx
    obtain ⟨k, hk⟩ := List.mem_iff_get.mp hx
    have hklt := k.2
    obtain ⟨i, hi1, hi2, hi⟩ := hlabel ((k.1 : Int) + 2) (by omega) (by omega)
    have hval := hfill i hi1 hi2
    have hidx : vecGet perm i - 1 = (k.1 : Int) := by omega
    rw [hidx, vecGet_natCast pp k.1 k.2, hk] at hval
    have hpi := hp i hi1 hi2
    have := hprange (vecGet p i) hpi.1 (by omega)
    omega
  · intro v h1 h2
    obtain ⟨i, hi1, hi2, hi⟩ := hlabel v h1 h2
    obtain ⟨q, rfl⟩ := Int.eq_ofNat_of_zero_le (show 0 ≤ i by omega)
    rw [← hi]
    exact chain_to_root perm p pp n hroot hp hfill q hi2
  · rw [identityPerm_eq_labels]
    exact hperm
  · intro i h1 h2
    exact parentOf_relabel perm p pp n hfill i h1 (by omega)

theorem genRootedTree_generate_format_witness :
    (generate lcgRnd 6 0 (some 1) ⟨0, false⟩).1 = .ok "6\n1 1 3 1 1\n" ∧
    ∃ pp : List Int,
      (generate lcgRnd 6 0 (some 1) ⟨0, false⟩).1 = .ok (renderRooted 6 pp) ∧
      (pp.length : Int) = 6 - 1 ∧
      (∀ x ∈ pp, 1 ≤ x ∧ x ≤ 6) ∧
      (∀ v, 2 ≤ v → v ≤ 6 → ∃ steps, (parentOf pp)^[steps] v = 1) :=
  have h := genRootedTree_generate_format lcgRnd 6 0 (some 1) ⟨0, false⟩ (by decide)
    (fun i s hi => by
      have h := lcgDraw_range i (by omega) s
      simp only [lcgRnd]
      omega)
    (fun l s => by simp only [lcgRnd]; exact List.rotate_perm _ _)
  ⟨rfl, h.elim fun pp hpp => ⟨pp, hpp.1, hpp.2.1, hpp.2.2.1, hpp.2.2.2.1⟩⟩

end GenRootedTree

/-! ## Proofs: gen-tree-graph.cpp -/

theorem isAcyclic_of_parent {V : Type} [DecidableEq V] (G : SimpleGraph V) (rank : V → ℕ)
    (par : V → V)
    (hadj : ∀ u v, G.Adj u v →
      (rank v < rank u ∧ par u = v) ∨ (rank u < rank v ∧ par v = u)) :
    G.IsAcyclic := by
  intro v c hc
  obtain ⟨w, hw, hmax⟩ : ∃ w ∈ c.support, ∀ x ∈ c.support, rank x ≤ rank w := by
    have hne : c.support.toFinset.Nonempty := ⟨v, by simp⟩
    obtain ⟨w, hw, hmax⟩ := Finset.exists_max_image c.support.toFinset rank hne
    exact ⟨w, by simpa using hw, fun x hx => hmax x (by simpa using hx)⟩
  have hc1 : (c.rotate hw).IsCycle := hc.rotate hw
  have hsupp : ∀ x ∈ (c.rotate hw).support.tail, rank x ≤ rank w := by
    intro x hx
    have := (c.support_rotate hw).mem_iff.mp hx
    exact hmax x (List.mem_of_mem_tail this)
  generalize c.rotate hw = c1 at hc1 hsupp
  match c1, hc1, hsupp with
  | .nil, hc1, _ => exact hc1.ne_nil rfl
  | .cons (v := u1) h p, hc1, hsupp =>
    rw [SimpleGraph.Walk.cons_isCycle_iff] at hc1
    obtain ⟨hpath, hedge⟩ := hc1
    simp only [SimpleGraph.Walk.support_cons, List.tail_cons] at hsupp
    have hu1 : par w = u1 := by
      rcases hadj w u1 h with h1 | h1
      · exact h1.2
      · have := hsupp u1 p.start_mem_support
        omega
    have hne : w ≠ u1 := h.ne
    obtain ⟨u2, h2, q, hq⟩ := SimpleGraph.Walk.exists_eq_cons_of_ne hne p.reverse
    have hmem : s(w, u2) ∈ p.edges := by
      have : s(w, u2) ∈ p.reverse.edges := by
        rw [hq, SimpleGraph.Walk.edges_cons]
        exact List.mem_cons_self _ _
      rw [SimpleGraph.Walk.edges_reverse] at this
      exact List.mem_reverse.mp this
    have hu2 : par w = u2 := by
      rcases hadj w u2 h2 with h1 | h1
      · exact h1.2
      · have := hsupp u2 (p.snd_mem_support_of_mem_edges hmem)
        omega
    rw [← hu2, hu1] at hmem
    exact hedge hmem

theorem connected_of_parent {V : Type} (G : SimpleGraph V) (root : V) (rank : V → ℕ)
    (par : V → V)
    (hpar : ∀ v, v ≠ root → rank (par v) < rank v ∧ G.Adj v (par v)) :
    G.Connected := by
  have hreach : ∀ k v, rank v = k → G.Reachable v root := by
    intro k
    induction k using Nat.strong_induction_on with
    | _ k ih =>
      intro v hv
      by_cases h : v = root
      · subst h
        exact SimpleGraph.Reachable.refl _
      · obtain ⟨hlt, hadj⟩ := hpar v h
        exact hadj.reachable.trans (ih _ (hv ▸ hlt) _ rfl)
  haveI : Nonempty V := ⟨root⟩
  exact ⟨fun u v => (hreach _ u rfl).trans (hreach _ v rfl).symm⟩

namespace GenTree

theorem edgeLoop_sym {σ : Type} (R : Rnd σ) (perm p : List Int) (k : Nat) (i : Int)
    (edges : List (Int × Int)) (s : σ) :
    (edgeLoop R perm p k i edges s).1.map Sym2.mk =
      edges.map Sym2.mk ++ (List.range k).map fun (d : Nat) =>
        s(vecGet perm (i + d), vecGet perm (vecGet p (i + d))) := by
  induction k generalizing i edges s with
  | zero => simp [edgeLoop]
  | succ k ih =>
    rw [edgeLoop, ih, List.range_succ_eq_map, List.map_append, List.append_assoc]
    congr 1
    simp only [List.map_cons, List.map_nil, List.singleton_append, Nat.cast_zero, add_zero,
      List.map_map]
    congr 1
    · split_ifs
      · rfl
      · exact Sym2.eq_swap
    · apply List.map_congr_left
      intro d _
      simp only [Function.comp_apply, Nat.cast_succ]
      have : i + 1 + (d : Int) = i + ((d : Int) + 1) := by ring
      rw [this]

theorem tree_emit_eq (es : List (Int × Int)) (out : String) :
    emit es out = out ++ String.join (es.map fun e =>
      toString (e.1 + 1) ++ " " ++ toString (e.2 + 1) ++ "\n") := by
  induction es generalizing out with
  | nil => simp [emit, join_nil]
  | cons e es ih =>
    rw [emit, ih, List.map_cons, join_cons]
    simp [String.append_assoc]

/-- A graph whose lines are exactly the edges `{perm[i]+1, perm[p[i]]+1}`, `1 <= i < n`,
with `p[i] < i` and `perm` a rearrangement of `0..n-1`, is a tree on the labels `1..n`. -/
theorem lineGraph_isTree (n : Int) (hn : 1 ≤ n) (perm p : List Int)
    (hperm : perm.Perm (labels n 0))
    (hp : ∀ j, 1 ≤ j → j < n → 0 ≤ vecGet p j ∧ vecGet p j ≤ j - 1)
    (lines : List (Int × Int))
    (hsound : ∀ e ∈ lines, ∃ i, 1 ≤ i ∧ i < n ∧
      (e = (vecGet perm i + 1, vecGet perm (vecGet p i) + 1) ∨
        e = (vecGet perm (vecGet p i) + 1, vecGet perm i + 1)))
    (hcomplete : ∀ i, 1 ≤ i → i < n →
      ((vecGet perm i + 1, vecGet perm (vecGet p i) + 1) ∈ lines ∨
        (vecGet perm (vecGet p i) + 1, vecGet perm i + 1) ∈ lines)) :
    (lineGraph n lines).IsTree := by
  obtain ⟨hplen, hnd, hprange, hsurj⟩ := perm_facts n (by omega) perm hperm
  have hinj : ∀ i j, 0 ≤ i → i < n → 0 ≤ j → j < n → vecGet perm i = vecGet perm j → i = j :=
    fun i j hi0 hi1 hj0 hj1 h =>
      vecGet_inj perm hnd i j hi0 (by omega) hj0 (by omega) h
  have hex : ∀ v : {v : Int // 1 ≤ v ∧ v ≤ n},
      ∃ i : Nat, (i : Int) < n ∧ vecGet perm i = v.1 - 1 := by
    intro v
    obtain ⟨i, hi0, hi1, hi⟩ := hsurj (v.1 - 1) (by have := v.2; omega) (by have := v.2; omega)
    obtain ⟨k, rfl⟩ := Int.eq_ofNat_of_zero_le hi0
    exact ⟨k, hi1, hi⟩
  choose rank hrank using hex
  have hrank_eq : ∀ (v : {v : Int // 1 ≤ v ∧ v ≤ n}) (i : Int), 0 ≤ i → i < n →
      vecGet perm i + 1 = v.1 → (rank v : Int) = i := by
    intro v i hi0 hi1 hi
    exact hinj _ _ (by omega) (hrank v).1 hi0 hi1 (by rw [(hrank v).2]; omega)
  have hroot_range : 1 ≤ vecGet perm 0 + 1 ∧ vecGet perm 0 + 1 ≤ n := by
    have := hprange 0 (le_refl _) (by omega)
    omega
  let root : {v : Int // 1 ≤ v ∧ v ≤ n} := ⟨vecGet perm 0 + 1, hroot_range⟩
  let par : {v : Int // 1 ≤ v ∧ v ≤ n} → {v : Int // 1 ≤ v ∧ v ≤ n} := fun v =>
    if h : 1 ≤ vecGet perm (vecGet p (rank v)) + 1 ∧ vecGet perm (vecGet p (rank v)) + 1 ≤ n
    then ⟨vecGet perm (vecGet p (rank v)) + 1, h⟩ else v
  have hpar_val : ∀ v, 1 ≤ (rank v : Int) →
      (par v).1 = vecGet perm (vecGet p (rank v)) + 1 := by
    intro v hv
    have hpi := hp (rank v) hv (hrank v).1
    have hr := hprange (vecGet p (rank v)) hpi.1 (by have := (hrank v).1; omega)
    have h : 1 ≤ vecGet perm (vecGet p (rank v)) + 1 ∧
        vecGet perm (vecGet p (rank v)) + 1 ≤ n := by omega
    simp only [par, dif_pos h]
  have hpar_rank : ∀ v, 1 ≤ (rank v : Int) → (rank (par v) : Int) = vecGet p (rank v) := by
    intro v hv
    have hpi := hp (rank v) hv (hrank v).1
    exact hrank_eq (par v) _ hpi.1 (by have := (hrank v).1; omega) (hpar_val v hv).symm
  have hadj_rank : ∀ (a b : {v : Int // 1 ≤ v ∧ v ≤ n}) (i : Int), 1 ≤ i → i < n →
      a.1 = vecGet perm i + 1 → b.1 = vecGet perm (vecGet p i) + 1 →
      rank b < rank a ∧ par a = b := by
    intro a b i hi1 hi2 ha hb
    have hra : (rank a : Int) = i := hrank_eq a i (by omega) hi2 ha.symm
    have hpi := hp i hi1 hi2
    have hrb : (rank b : Int) = vecGet p i := hrank_eq b _ hpi.1 (by omega) hb.symm
    refine ⟨by omega, Subtype.ext ?_⟩
    rw [hpar_val a (by omega), hra, hb]
  refine ⟨connected_of_parent _ root rank par ?_, isAcyclic_of_parent _ rank par ?_⟩
  · intro v hv
    have hv1 : 1 ≤ (rank v : Int) := by
      by_contra hc
      have h0 : (rank v : Int) = 0 := by omega
      apply hv
      apply Subtype.ext
      have := (hrank v).2
      rw [h0] at this
      show v.1 = vecGet perm 0 + 1
      omega
    have hlt : rank (par v) < rank v := by
      have := hpar_rank v hv1
      have := hp (rank v) hv1 (hrank v).1
      omega
    refine ⟨hlt, ?_, ?_⟩
    · intro h
      rw [← h] at hlt
      exact lt_irrefl _ hlt
    · have hv_val : v.1 = vecGet perm (rank v) + 1 := by
        have := (hrank v).2
        omega
      rw [hpar_val v hv1, hv_val]
      exact hcomplete (rank v) hv1 (hrank v).1
  · intro a b hab
    obtain ⟨-, hmem⟩ := hab
    rcases hmem with hmem | hmem
    · obtain ⟨i, hi1, hi2, he⟩ := hsound _ hmem
      rcases he with he | he
      · simp only [Prod.mk.injEq] at he
        exact Or.inl (hadj_rank a b i hi1 hi2 he.1 he.2)
      · simp only [Prod.mk.injEq] at he
        exact Or.inr (hadj_rank b a i hi1 hi2 he.2 he.1)
    · obtain ⟨i, hi1, hi2, he⟩ := hsound _ hmem
      rcases he with he | he
      · simp only [Prod.mk.injEq] at he
        exact Or.inr (hadj_rank b a i hi1 hi2 he.1 he.2)
      · simp only [Prod.mk.injEq] at he
        exact Or.inl (hadj_rank a b i hi1 hi2 he.2 he.1)

/-- What follows from the edge list being, up to order and orientation, the list of the
edges `{perm[i], perm[p[i]]}` for `i = 1..n-1`. -/
theorem lines_spec (n : Int) (hn : 1 ≤ n) (perm p : List Int)
    (hperm : perm.Perm (labels n 0))
    (hp : ∀ j, 1 ≤ j → j < n → 0 ≤ vecGet p j ∧ vecGet p j ≤ j - 1)
    (edges : List (Int × Int))
    (hE : (edges.map Sym2.mk).Perm ((List.range (n - 1).toNat).map fun (d : Nat) =>
      s(vecGet perm (1 + d), vecGet perm (vecGet p (1 + d))))) :
    ((edges.map fun e => (e.1 + 1, e.2 + 1)).length : Int) = n - 1 ∧
    (∀ e ∈ edges.map fun e => (e.1 + 1, e.2 + 1),
      1 ≤ e.1 ∧ e.1 ≤ n ∧ 1 ≤ e.2 ∧ e.2 ≤ n ∧ e.1 ≠ e.2) ∧
    ((edges.map fun e => (e.1 + 1, e.2 + 1)).map Sym2.mk).Nodup ∧
    (lineGraph n (edges.map fun e => (e.1 + 1, e.2 + 1))).IsTree := by
  obtain ⟨hplen, hnd, hprange, hsurj⟩ := perm_facts n (by omega) perm hperm
  have hinj : ∀ i j, 0 ≤ i → i < n → 0 ≤ j → j < n → vecGet perm i = vecGet perm j → i = j :=
    fun i j hi0 hi1 hj0 hj1 h =>
      vecGet_inj perm hnd i j hi0 (by omega) hj0 (by omega) h
  have hsound : ∀ e ∈ edges, ∃ i, 1 ≤ i ∧ i < n ∧
      (e = (vecGet perm i, vecGet perm (vecGet p i)) ∨
        e = (vecGet perm (vecGet p i), vecGet perm i)) := by
    intro e he
    have h1 : Sym2.mk e ∈ edges.map Sym2.mk := List.mem_map.mpr ⟨e, he, rfl⟩
    obtain ⟨d, hd, hde⟩ := List.mem_map.mp (hE.mem_iff.mp h1)
    have hd1 := List.mem_range.mp hd
    refine ⟨1 + d, by omega, by omega, ?_⟩
    rcases Sym2.mk_eq_mk_iff.mp hde with h | h
    · exact Or.inl h.symm
    · right
      have h3 := congrArg Prod.swap h
      simp only [Prod.swap_swap, Prod.swap_prod_mk] at h3
      exact h3.symm
  have hcomplete : ∀ i, 1 ≤ i → i < n →
      ((vecGet perm i, vecGet perm (vecGet p i)) ∈ edges ∨
        (vecGet perm (vecGet p i), vecGet perm i) ∈ edges) := by
    intro i h1 h2
    have hmem : s(vecGet perm i, vecGet perm (vecGet p i)) ∈
        (List.range (n - 1).toNat).map fun (d : Nat) =>
          s(vecGet perm (1 + d), vecGet perm (vecGet p (1 + d))) := by
      refine List.mem_map.mpr ⟨(i - 1).toNat, List.mem_range.mpr (by omega), ?_⟩
      have : (1 : Int) + ((i - 1).toNat : Int) = i := by omega
      simp only [this]
    obtain ⟨e, he, hee⟩ := List.mem_map.mp (hE.mem_iff.mpr hmem)
    rcases Sym2.mk_eq_mk_iff.mp hee with h | h
    · left; rw [← h]; exact he
    · right
      have : e = (vecGet perm (vecGet p i), vecGet perm i) := by rw [h]; rfl
      rw [← this]; exact he
  have hne : ∀ i, 1 ≤ i → i < n → vecGet perm i ≠ vecGet perm (vecGet p i) := by
    intro i h1 h2 h
    have hpi := hp i h1 h2
    have := hinj _ _ (by omega) h2 hpi.1 (by omega) h
    omega
  refine ⟨?_, ?_, ?_, ?_⟩
  · have := hE.length_eq
    simp only [List.length_map, List.length_range] at this
    rw [List.length_map, this, Int.toNat_of_nonneg (by omega)]
  · intro e he
    obtain ⟨e0, he0, rfl⟩ := List.mem_map.mp he
    obtain ⟨i, h1, h2, hi⟩ := hsound e0 he0
    have hpi := hp i h1 h2
    have ha := hprange i (by omega) h2
    have hb := hprange (vecGet p i) hpi.1 (by omega)
    have hab := hne i h1 h2
    rcases hi with rfl | rfl <;> dsimp only <;> omega
  · have hS : ((List.range (n - 1).toNat).map fun (d : Nat) =>
        s(vecGet perm (1 + d), vecGet perm (vecGet p (1 + d)))).Nodup := by
      refine List.Nodup.map_on ?_ (List.nodup_range _)
      intro d hd d1 hd1 h
      have hdr := List.mem_range.mp hd
      have hd1r := List.mem_range.mp hd1
      have hpd := hp (1 + d) (by omega) (by omega)
      have hpd1 := hp (1 + d1) (by omega) (by omega)
      rcases Sym2.eq_iff.mp h with ⟨h1, -⟩ | ⟨h1, h2⟩
      · have := hinj _ _ (by omega) (by omega) (by omega) (by omega) h1
        omega
      · have e1 := hinj _ _ (by omega) (by omega) hpd1.1 (by omega) h1
        have e2 := hinj _ _ hpd.1 (by omega) (by omega) (by omega) h2
        omega
    have hEnd : (edges.map Sym2.mk).Nodup := hE.nodup_iff.mpr hS
    have hmap : (edges.map fun e => (e.1 + 1, e.2 + 1)).map Sym2.mk
        = (edges.map Sym2.mk).map (Sym2.map fun x => x + 1) := by
      simp only [List.map_map]
      apply List.map_congr_left
      intro e _
      rfl
    rw [hmap]
    exact hEnd.map (Sym2.map.injective fun a b h => by simpa using h)
  · apply lineGraph_isTree n hn perm p hperm hp
    · intro e he
      obtain ⟨e0, he0, rfl⟩ := List.mem_map.mp he
      obtain ⟨i, h1, h2, hi⟩ := hsound e0 he0
      refine ⟨i, h1, h2, ?_⟩
      rcases hi with rfl | rfl
      · exact Or.inl rfl
      · exact Or.inr rfl
    · intro i h1 h2
      rcases hcomplete i h1 h2 with h | h
      · exact Or.inl (List.mem_map.mpr ⟨_, h, rfl⟩)
      · exact Or.inr (List.mem_map.mpr ⟨_, h, rfl⟩)

/-- C3: for `n >= 1`, draws `wnext(i, t)` in `[0, i-1]`, `perm(n)` a rearrangement of
`0..n-1` and `shuffle` a rearrangement of its input, the output is the line `n` followed by
exactly `n-1` lines `u v` with `1 <= u, v <= n` and `u != v`; no two lines join the same
pair of nodes, and the undirected graph on `1..n` with these edges is connected and has no
cycle. -/
theorem genTree_generate_format {σ : Type} (R : Rnd σ) (n t : Int) (seed : Option Int)
    (w : Module σ) (hn : 1 ≤ n)
    (hw : ∀ i s, 1 ≤ i → 0 ≤ (R.wnext i t s).1 ∧ (R.wnext i t s).1 ≤ i - 1)
    (hperm : ∀ s, (R.perm n 0 s).1.Perm (labels n 0))
    (hsh : ∀ l s, (R.shuffle (Int × Int) l s).1.Perm l) :
    ∃ lines : List (Int × Int),
      (generate R n t seed w).1 = .ok (renderTree n lines) ∧
      (lines.length : Int) = n - 1 ∧
      (∀ e ∈ lines, 1 ≤ e.1 ∧ e.1 ≤ n ∧ 1 ≤ e.2 ∧ e.2 ≤ n ∧ e.1 ≠ e.2) ∧
      (lines.map Sym2.mk).Nodup ∧
      (lineGraph n lines).Connected ∧ (lineGraph n lines).IsAcyclic := by
  have hgen : (generate R n t seed w).1 = .ok (renderTree n
      ((edgeList R n t (applySeed R seed (ensureRegistered R w).rng)).1.map
        fun e => (e.1 + 1, e.2 + 1))) := by
    unfold generate
    simp only [if_neg (show ¬ n ≤ 0 by omega)]
    rw [tree_emit_eq, renderTree, List.map_map]
    rfl
  obtain ⟨-, hp⟩ := parents_spec R n t hw hn (applySeed R seed (ensureRegistered R w).rng)
  have hE : ((edgeList R n t (applySeed R seed (ensureRegistered R w).rng)).1.map
      Sym2.mk).Perm ((List.range (n - 1).toNat).map fun (d : Nat) =>
        s(vecGet (R.perm n 0 (parents R n t
            (applySeed R seed (ensureRegistered R w).rng)).2).1 (1 + d),
          vecGet (R.perm n 0 (parents R n t
            (applySeed R seed (ensureRegistered R w).rng)).2).1
            (vecGet (parents R n t (applySeed R seed (ensureRegistered R w).rng)).1
              (1 + d)))) := by
    unfold edgeList
    refine ((hsh _ _).map Sym2.mk).trans ?_
    rw [edgeLoop_sym]
    simp
  obtain ⟨h1, h2, h3, h4⟩ := lines_spec n hn _ _ (hperm _) hp _ hE
  exact ⟨_, hgen, h1, h2, h3, h4.isConnected, h4.IsAcyclic⟩

theorem genTree_generate_format_witness :
    (generate lcgRnd 6 0 (some 1) ⟨0, false⟩).1 = .ok "6\n3 1\n4 1\n5 4\n6 1\n1 2\n" ∧
    ∃ lines : List (Int × Int),
      (generate lcgRnd 6 0 (some 1) ⟨0, false⟩).1 = .ok (renderTree 6 lines) ∧
      (lines.length : Int) = 6 - 1 ∧
      (∀ e ∈ lines, 1 ≤ e.1 ∧ e.1 ≤ 6 ∧ 1 ≤ e.2 ∧ e.2 ≤ 6 ∧ e.1 ≠ e.2) ∧
      (lines.map Sym2.mk).Nodup ∧
      (lineGraph 6 lines).Connected ∧ (lineGraph 6 lines).IsAcyclic :=
  ⟨rfl, genTree_generate_format lcgRnd 6 0 (some 1) ⟨0, false⟩ (by decide)
    (fun i s hi => by
      have h := lcgDraw_range i (by omega) s
      simp only [lcgRnd]
      omega)
    (fun s => by simp only [lcgRnd, labels]; exact List.rotate_perm _ _)
    (fun l s => by simp only [lcgRnd]; exact List.rotate_perm _ _)⟩

end GenTree

/-! ## Proofs: seeding and rejected calls -/

theorem ensureRegistered_registered {σ : Type} (R : Rnd σ) (w : Module σ) :
    (ensureRegistered R w).registered = true := by
  unfold ensureRegistered
  split_ifs with h
  · exact h
  · rfl

theorem ensureRegistered_of_registered {σ : Type} (R : Rnd σ) (w : Module σ)
    (h : w.registered = true) : ensureRegistered R w = w := by
  unfold ensureRegistered
  rw [if_pos h]

theorem applySeed_some_eq {σ : Type} (R : Rnd σ)
    (hseed : ∀ v s1 s2, R.setSeed v s1 = R.setSeed v s2) (v : Int) (s1 s2 : σ) :
    applySeed R (some v) s1 = applySeed R (some v) s2 := hseed v s1 s2

/-- C1: if `setSeed(v)` replaces the engine state by a function of `v` alone, then every
seeded entry point (array, bipartite graph, rooted tree, unrooted tree, bgen, igen, iwgen,
sgen, swgen), called with seed `v` and the same parameters, returns the same output from
any two module states (any prior engine state, any value of `registered`). -/
theorem seeded_generate_reproducible {σ : Type} (bits : Nat) (R : Rnd σ)
    (hseed : ∀ v s1 s2, R.setSeed v s1 = R.setSeed v s2) (v : Int) (w1 w2 : Module σ) :
    (∀ test_count sum_n min_n min_value max_value value_bias,
      (GenArray.generate R test_count sum_n min_n min_value max_value value_bias (some v) w1).1
        = (GenArray.generate R test_count sum_n min_n min_value max_value value_bias
            (some v) w2).1) ∧
    (∀ n m k fuel,
      (GenBipartite.generate bits R n m k (some v) fuel w1).map Prod.fst
        = (GenBipartite.generate bits R n m k (some v) fuel w2).map Prod.fst) ∧
    (∀ n t, (GenRootedTree.generate R n t (some v) w1).1
        = (GenRootedTree.generate R n t (some v) w2).1) ∧
    (∀ n t, (GenTree.generate R n t (some v) w1).1 = (GenTree.generate R n t (some v) w2).1) ∧
    (Bgen.generate R (some v) w1).1 = (Bgen.generate R (some v) w2).1 ∧
    (Igen.generate R (some v) w1).1 = (Igen.generate R (some v) w2).1 ∧
    (∀ weight, (Iwgen.generate R weight (some v) w1).1
        = (Iwgen.generate R weight (some v) w2).1) ∧
    (Sgen.generate R (some v) w1).1 = (Sgen.generate R (some v) w2).1 ∧
    (∀ weight, (Swgen.generate R weight (some v) w1).1
        = (Swgen.generate R weight (some v) w2).1) := by
  have key : applySeed R (some v) (ensureRegistered R w1).rng
      = applySeed R (some v) (ensureRegistered R w2).rng := applySeed_some_eq R hseed v _ _
  refine ⟨?_, ?_, ?_, ?_, ?_, ?_, ?_, ?_, ?_⟩
  · intro test_count sum_n min_n min_value max_value value_bias
    simp only [GenArray.generate, key]
    split_ifs <;> rfl
  · intro n m k fuel
    simp only [GenBipartite.generate, key]
    split_ifs
    · rfl
    · rfl
    · rfl
    · cases GenBipartite.edgeLoop R n m
          (R.nextRange (-2) 2 (applySeed R (some v) (ensureRegistered R w2).rng)).1 k fuel []
          (R.nextRange (-2) 2 (applySeed R (some v) (ensureRegistered R w2).rng)).2 <;> rfl
  · intro n t
    simp only [GenRootedTree.generate, key]
    split_ifs <;> rfl
  · intro n t
    simp only [GenTree.generate, key]
    split_ifs <;> rfl
  · simp only [Bgen.generate, key]
  · simp only [Igen.generate, key]
  · intro weight
    simp only [Iwgen.generate, key]
  · simp only [Sgen.generate, key]
  · intro weight
    simp only [Swgen.generate, key]

theorem seeded_generate_reproducible_witness :
    (GenArray.generate lcgRnd 2 5 1 1 10 0 (some 1) ⟨0, false⟩).1
      = (GenArray.generate lcgRnd 2 5 1 1 10 0 (some 1) ⟨99, true⟩).1 ∧
    (GenBipartite.generate 64 lcgRnd 3 3 9 (some 1) 20 ⟨0, false⟩).map Prod.fst
      = (GenBipartite.generate 64 lcgRnd 3 3 9 (some 1) 20 ⟨99, true⟩).map Prod.fst ∧
    (GenRootedTree.generate lcgRnd 6 0 (some 1) ⟨0, false⟩).1
      = (GenRootedTree.generate lcgRnd 6 0 (some 1) ⟨99, true⟩).1 ∧
    (GenTree.generate lcgRnd 6 0 (some 1) ⟨0, false⟩).1
      = (GenTree.generate lcgRnd 6 0 (some 1) ⟨99, true⟩).1 ∧
    (Swgen.generate lcgRnd 3 (some 1) ⟨0, false⟩).1
      = (Swgen.generate lcgRnd 3 (some 1) ⟨99, true⟩).1 :=
  have h := seeded_generate_reproducible 64 lcgRnd (fun _ _ _ => rfl) 1 ⟨0, false⟩ ⟨99, true⟩
  ⟨h.1 2 5 1 1 10 0, h.2.1 3 3 9 20, h.2.2.1 6 0, h.2.2.2.1 6 0, h.2.2.2.2.2.2.2.2 3⟩

/-- C8 (counterexample): on a first call (`registered` false) a rejected call has already
run `registerGen`, so the engine state differs from the state before the call.  Shown for
all four validating entry points on the recording engine, starting from the empty record. -/
theorem rejected_first_call_runs_registerGen :
    GenArray.generate traceRnd 0 5 1 1 10 0 (some 1) ⟨[], false⟩
      = (.error "test_count must be positive", ⟨["registerGen"], true⟩) ∧
    GenBipartite.generate 64 traceRnd 3 3 10 (some 1) 20 ⟨[], false⟩
      = some (.error "k must not exceed n * m", ⟨["registerGen"], true⟩) ∧
    GenRootedTree.generate traceRnd 0 0 (some 1) ⟨[], false⟩
      = (.error "n must be positive", ⟨["registerGen"], true⟩) ∧
    GenTree.generate traceRnd 0 0 (some 1) ⟨[], false⟩
      = (.error "n must be positive", ⟨["registerGen"], true⟩) ∧
    (["registerGen"] : List String) ≠ [] :=
  ⟨rfl, rfl, rfl, rfl, by decide⟩

/-- C8 (amended): a call rejected with an invalid-argument error leaves the module exactly
as `ensureRegistered` left it, so no `setSeed` and no draw ran before validation passed:
when `registered` was already true the module state is unchanged, and on a first call the
engine state is the result of `registerGen` alone. -/
theorem rejected_call_state {σ : Type} (bits : Nat) (R : Rnd σ) (w : Module σ) :
    (∀ test_count sum_n min_n min_value max_value value_bias seed msg w1,
      GenArray.generate R test_count sum_n min_n min_value max_value value_bias seed w
        = (.error msg, w1) → w1 = ensureRegistered R w) ∧
    (∀ n m k seed fuel msg w1,
      GenBipartite.generate bits R n m k seed fuel w = some (.error msg, w1) →
        w1 = ensureRegistered R w) ∧
    (∀ n t seed msg w1,
      GenRootedTree.generate R n t seed w = (.error msg, w1) → w1 = ensureRegistered R w) ∧
    (∀ n t seed msg w1,
      GenTree.generate R n t seed w = (.error msg, w1) → w1 = ensureRegistered R w) ∧
    (w.registered = true → ensureRegistered R w = w) ∧
    (w.registered = false → ensureRegistered R w = ⟨R.registerGen w.rng, true⟩) := by
  refine ⟨?_, ?_, ?_, ?_, ensureRegistered_of_registered R w, ?_⟩
  · intro test_count sum_n min_n min_value max_value value_bias seed msg w1 h
    simp only [GenArray.generate] at h
    split_ifs at h <;> simp only [Prod.mk.injEq, reduceCtorEq, false_and] at h <;> exact h.2.symm
  · intro n m k seed fuel msg w1 h
    simp only [GenBipartite.generate] at h
    split_ifs at h
    · simp only [Option.some.injEq, Prod.mk.injEq] at h; exact h.2.symm
    · simp only [Option.some.injEq, Prod.mk.injEq] at h; exact h.2.symm
    · simp only [Option.some.injEq, Prod.mk.injEq] at h; exact h.2.symm
    · split at h
      · cases h
      · simp only [Option.some.injEq, Prod.mk.injEq, reduceCtorEq, false_and] at h
  · intro n t seed msg w1 h
    simp only [GenRootedTree.generate] at h
    split_ifs at h
    · simp only [Prod.mk.injEq] at h; exact h.2.symm
    · simp only [Prod.mk.injEq, reduceCtorEq, false_and] at h
  · intro n t seed msg w1 h
    simp only [GenTree.generate] at h
    split_ifs at h
    · simp only [Prod.mk.injEq] at h; exact h.2.symm
    · simp only [Prod.mk.injEq, reduceCtorEq, false_and] at h
  · intro h
    unfold ensureRegistered
    simp [h]

/-! ## Proofs: gs.cpp -/

namespace Gs

theorem gs_appendRepeat_eq (out pattern : String) (k : Nat) :
    appendRepeat out pattern k = out ++ String.join (List.replicate k pattern) := by
  induction k generalizing out with
  | zero => simp [appendRepeat, String.join]
  | succ k ih =>
    rw [appendRepeat, ih, List.replicate_succ, join_cons, String.append_assoc]

theorem gs_loop_ok (parts : List (Int × String)) (out : String)
    (h : ∀ part ∈ parts, 0 ≤ part.1) : loop parts out = .ok (out ++ expected parts) := by
  induction parts generalizing out with
  | nil => simp [loop, expected, join_nil]
  | cons part rest ih =>
    have h0 : ¬ part.1 < 0 := not_lt.mpr (h part (List.mem_cons_self _ _))
    rw [loop, if_neg h0, ih _ (fun q hq => h q (List.mem_cons_of_mem _ hq)), gs_appendRepeat_eq]
    simp [expected, join_cons, repeated, String.append_assoc]

theorem gs_loop_error (parts : List (Int × String)) (out : String)
    (h : ∃ part ∈ parts, part.1 < 0) :
    loop parts out = .error "repeat count must be non-negative" := by
  induction parts generalizing out with
  | nil => simp at h
  | cons part rest ih =>
    rw [loop]
    by_cases h0 : part.1 < 0
    · simp [h0]
    · rw [if_neg h0]
      apply ih
      obtain ⟨q, hq, hneg⟩ := h
      rcases List.mem_cons.mp hq with rfl | hq
      · exact absurd hneg h0
      · exact ⟨q, hq, hneg⟩

theorem gs_repeated_length (part : Int × String) :
    (repeated part).length = part.1.toNat * part.2.length := by
  simp [repeated, join_length]

/-- C9: for a non-empty sequence of parts whose repeat counts are all non-negative,
`generate` returns the concatenation, in input order, of each pattern repeated its count
times, and the length of the result is the sum of `count * length(pattern)`. -/
theorem gs_generate_concat (parts : List (Int × String)) (hne : parts ≠ [])
    (hcount : ∀ part ∈ parts, 0 ≤ part.1) :
    generate parts = .ok (String.join (parts.map fun part =>
        String.join (List.replicate part.1.toNat part.2))) ∧
    ∀ out, generate parts = .ok out →
      out.length = (parts.map fun part => part.1.toNat * part.2.length).sum := by
  have hgen : generate parts = .ok (expected parts) := by
    have : parts.isEmpty = false := by
      cases parts with
      | nil => exact absurd rfl hne
      | cons a l => rfl
    rw [generate, this]
    simp [gs_loop_ok parts "" hcount]
  refine ⟨hgen, ?_⟩
  intro out hout
  rw [hgen] at hout
  injection hout with hout
  subst hout
  rw [expected, join_length, List.map_map]
  congr 1
  apply List.map_congr_left
  intro part _
  exact gs_repeated_length part

theorem gs_generate_concat_witness :
    generate [(2, "ab"), (0, "x"), (1, "c")] = .ok "ababc" ∧
    ∀ out, generate [(2, "ab"), (0, "x"), (1, "c")] = .ok out → out.length = 5 := by
  have h := gs_generate_concat [(2, "ab"), (0, "x"), (1, "c")] (by simp) (by simp)
  refine ⟨h.1.trans rfl, ?_⟩
  intro out hout
  exact (h.2 out hout).trans rfl

/-- C10: `generate` fails with an invalid-argument error exactly when the sequence is empty
or some part, at any position, has a negative repeat count; a failure carries one of the
two fixed messages and no generated text. -/
theorem gs_generate_error_iff (parts : List (Int × String)) :
    ((∃ msg, generate parts = .error msg) ↔ (parts = [] ∨ ∃ part ∈ parts, part.1 < 0)) ∧
    (∀ msg, generate parts = .error msg →
      msg = "parts must not be empty" ∨ msg = "repeat count must be non-negative") := by
  cases parts with
  | nil => simp [generate]
  | cons a l =>
    have hgen : generate (a :: l) = loop (a :: l) "" := by simp [generate]
    by_cases hneg : ∃ part ∈ a :: l, part.1 < 0
    · rw [hgen, gs_loop_error _ _ hneg]
      refine ⟨⟨fun _ => Or.inr hneg, fun _ => ⟨_, rfl⟩⟩, fun msg h => Or.inr ?_⟩
      injection h with h
      exact h.symm
    · have hall : ∀ part ∈ a :: l, 0 ≤ part.1 := by
        intro part hp
        by_contra hc
        exact hneg ⟨part, hp, not_le.mp hc⟩
      rw [hgen, gs_loop_ok _ _ hall]
      refine ⟨⟨fun h => ?_, fun h => ?_⟩, fun msg h => ?_⟩
      · obtain ⟨msg, h⟩ := h
        cases h
      · rcases h with h | h
        · cases h
        · exact absurd h hneg
      · cases h

end Gs

end Testlib
